import Mathlib

set_option maxHeartbeats 1000000

namespace AgentFs

/-! Shallow embedding of the SQLite-backed virtual filesystem of
`sdk/rust/src/filesystem.rs` and of the NFS permission logic of
`cli/src/nfsserve/permissions.rs`.

Table contents are modelled as lists of typed rows.  The store runs every SQL
statement separately (the source opens no transaction), so the write
operations are given a fuel argument: each statement that writes consumes one
unit of fuel, and exhausted fuel models the store failing at that statement,
leaving the effects of the earlier statements in place.  Read-only queries are
modelled as pure functions on the state. -/

-- File type masks and default modes (filesystem.rs, top of file)
def S_IFMT : Nat := 0o170000
def S_IFREG : Nat := 0o100000
def S_IFDIR : Nat := 0o040000
def S_IFLNK : Nat := 0o120000
def DEFAULT_FILE_MODE : Nat := S_IFREG ||| 0o644
def DEFAULT_DIR_MODE : Nat := S_IFDIR ||| 0o755
def ROOT_INO : Int := 1
def DEFAULT_CHUNK_SIZE : Nat := 4096

/-- The `max_symlink_depth` local constant of `Filesystem::stat`. -/
def max_symlink_depth : Nat := 40

/-- `str::trim_end_matches('/')`: drop the maximal run of trailing `'/'`. -/
def trimEndSlashes : List Char → List Char
  | [] => []
  | c :: rest =>
    match trimEndSlashes rest with
    | [] => if c = '/' then [] else [c]
    | r => c :: r

/-- `str::split('/')`: adjacent separators produce empty segments, and the
result is never the empty list. -/
def splitOnSlash : List Char → List (List Char)
  | [] => [[]]
  | c :: rest =>
    match splitOnSlash rest with
    | [] => [[]]
    | seg :: segs => if c = '/' then [] :: seg :: segs else (c :: seg) :: segs

/-- The `.` / `..` folding loop of `Filesystem::normalize_path`
(`acc` is the `result` vector). -/
def dotFold : List (List Char) → List (List Char) → List (List Char)
  | [], acc => acc
  | c :: rest, acc =>
    if c = ['.'] then dotFold rest acc
    else if c = ['.', '.'] then dotFold rest acc.dropLast
    else dotFold rest (acc ++ [c])

/-- `Vec::join("/")` on character-list segments. -/
def joinSegs : List (List Char) → List Char
  | [] => []
  | [s] => s
  | s :: rest => s ++ '/' :: joinSegs rest

/-- `Filesystem::normalize_path` on the character list of the input.  Note the
early return for inputs that do not start with `'/'`: the slash is prepended
and the `.` / `..` folding is skipped. -/
def normalizeChars (p : List Char) : List Char :=
  let t := trimEndSlashes p
  if t = [] then ['/']
  else if t.head? = some '/' then
    let comps := (splitOnSlash t).filter (fun s => s ≠ [])
    let r := dotFold comps []
    if r = [] then ['/'] else '/' :: joinSegs r
  else '/' :: t

/-- `Filesystem::normalize_path`. -/
def normalize_path (p : String) : String := ⟨normalizeChars p.data⟩

/-- `Filesystem::split_path`: normalize once, then split the resulting string
on `'/'` and drop empty segments. -/
def split_path (p : String) : List String :=
  let n := normalizeChars p.data
  if n = ['/'] then []
  else ((splitOnSlash n).filter (fun s => s ≠ [])).map (fun s => ⟨s⟩)

example : normalize_path "/a/./b/../c" = "/a/c" := by decide
example : normalize_path "/../.." = "/" := by decide
example : normalize_path "" = "/" := by decide
example : normalize_path "a/../b" = "/a/../b" := by decide
example : normalize_path "." = "/." := by decide
example : normalize_path "/." = "/" := by decide
example : split_path "a/../b" = ["a", "..", "b"] := by decide
example : split_path "/a/../b" = ["b"] := by decide

/-! ## Data model: the four tables of the store schema -/

/-- A row of `fs_inode` (`ino` is the `INTEGER PRIMARY KEY AUTOINCREMENT`). -/
structure Inode where
  ino : Int
  mode : Nat
  uid : Nat
  gid : Nat
  size : Int
  atime : Int
  mtime : Int
  ctime : Int
deriving DecidableEq, Repr

/-- A row of `fs_dentry`; the `id INTEGER PRIMARY KEY AUTOINCREMENT` column is
never consulted by any query of the source and is omitted. -/
structure Dentry where
  name : String
  parent_ino : Int
  ino : Int
deriving DecidableEq, Repr

/-- A row of `fs_data`, primary key `(ino, chunk_index)`; the chunk index
comes from `Iterator::enumerate`, hence a `usize`. -/
structure DataRow where
  ino : Int
  chunk_index : Nat
  data : List Nat
deriving DecidableEq, Repr

/-- A row of `fs_symlink` (primary key `ino`). -/
structure SymlinkRow where
  ino : Int
  target : String
deriving DecidableEq, Repr

/-- The store state: the four table contents plus the next `fs_inode`
AUTOINCREMENT rowid (AUTOINCREMENT never reuses an id, and the inserts of the
source can therefore not collide with existing rows). -/
structure FsState where
  inodes : List Inode
  dentries : List Dentry
  data : List DataRow
  symlinks : List SymlinkRow
  nextIno : Int
deriving DecidableEq, Repr

/-- The result of `Filesystem::stat` / `lstat` (`nlink` is derived). -/
structure Stats where
  ino : Int
  mode : Nat
  nlink : Nat
  uid : Nat
  gid : Nat
  size : Int
  atime : Int
  mtime : Int
  ctime : Int
deriving DecidableEq, Repr

/-- One error constructor per `anyhow::bail!` message of the source, plus
`StoreError` for a failure of the store itself. -/
inductive FsErr where
  | CannotCreateRootDir
  | CannotWriteToRoot
  | CannotSymlinkAtRoot
  | CannotRemoveRoot
  | ParentNotFound
  | AlreadyExists
  | PathNotFound
  | DirectoryNotEmpty
  | TooManySymlinks
  | SymlinkHasNoTarget
  | NotASymlink
  | StoreError
deriving DecidableEq, Repr

/-- The state the schema bootstrap (`initialize_schema`) leaves behind on an
empty database: the root directory inode (ino 1) stamped with the current
time, no other rows. -/
def freshState (now : Int) : FsState :=
  { inodes := [⟨ROOT_INO, DEFAULT_DIR_MODE, 0, 0, 0, now, now, now⟩]
    dentries := []
    data := []
    symlinks := []
    nextIno := 2 }

/-! ## Read-only queries (pure) -/

/-- `SELECT ino FROM fs_dentry WHERE parent_ino = ? AND name = ?` (the source
reads the first row). -/
def findDentry (st : FsState) (parent : Int) (name : String) : Option Dentry :=
  st.dentries.find? (fun d => d.parent_ino = parent ∧ d.name = name)

/-- `SELECT ... FROM fs_inode WHERE ino = ?` (first row). -/
def findInode (st : FsState) (ino : Int) : Option Inode :=
  st.inodes.find? (fun i => i.ino = ino)

/-- `Filesystem::get_link_count`: `SELECT COUNT(*) FROM fs_dentry WHERE ino = ?`. -/
def get_link_count (st : FsState) (ino : Int) : Nat :=
  (st.dentries.filter (fun d => d.ino = ino)).length

/-- `SELECT COUNT(*) FROM fs_dentry WHERE parent_ino = ?` (used by `remove`). -/
def childCount (st : FsState) (ino : Int) : Nat :=
  (st.dentries.filter (fun d => d.parent_ino = ino)).length

/-- The walk of `Filesystem::resolve_path` over a component list. -/
def resolveComps (st : FsState) : Int → List String → Option Int
  | i, [] => some i
  | i, c :: rest =>
    match findDentry st i c with
    | some d => resolveComps st d.ino rest
    | none => none

/-- `Filesystem::resolve_path` (an empty component list resolves to the root). -/
def resolve_path (st : FsState) (p : String) : Option Int :=
  resolveComps st ROOT_INO (split_path p)

/-- The parent-path expression repeated by `mkdir`, `write_file`, `symlink`
and `remove`: `"/"` for a single component, else `"/" + join("/")` of all
components but the last. -/
def joinStrings : List String → String
  | [] => ""
  | [s] => s
  | s :: rest => s ++ "/" ++ joinStrings rest

def parent_path_of (comps : List String) : String :=
  if comps.length = 1 then "/" else "/" ++ joinStrings comps.dropLast

/-- `Filesystem::build_stats_from_row`: attach the derived `nlink`. -/
def buildStats (st : FsState) (i : Inode) : Stats :=
  { ino := i.ino, mode := i.mode, nlink := get_link_count st i.ino
    uid := i.uid, gid := i.gid, size := i.size
    atime := i.atime, mtime := i.mtime, ctime := i.ctime }

/-- `Filesystem::lstat` (normalizes, resolves, reads the inode row). -/
def lstat (st : FsState) (p : String) : Option Stats :=
  match resolve_path st (normalize_path p) with
  | none => none
  | some ino =>
    match findInode st ino with
    | none => none
    | some i => some (buildStats st i)

/-- The rows of `fs_data` with the given `ino`. -/
def rowsFor (st : FsState) (ino : Int) : List DataRow :=
  st.data.filter (fun r => r.ino = ino)

/-- `ORDER BY chunk_index` on the selected rows (stable insertion sort). -/
def ordInsert (r : DataRow) : List DataRow → List DataRow
  | [] => [r]
  | s :: rest =>
    if r.chunk_index ≤ s.chunk_index then r :: s :: rest else s :: ordInsert r rest

def sortByIdx : List DataRow → List DataRow
  | [] => []
  | r :: rest => ordInsert r (sortByIdx rest)

/-- `Filesystem::read_file`: resolve (without separate normalization), load
the chunks ordered by `chunk_index`, concatenate.  The source checks no file
type. -/
def read_file (st : FsState) (p : String) : Option (List Nat) :=
  match resolve_path st p with
  | none => none
  | some ino => some ((sortByIdx (rowsFor st ino)).map (fun r => r.data)).flatten

/-- `Filesystem::readlink`. -/
def readlink (st : FsState) (p : String) : Except FsErr (Option String) :=
  match resolve_path st (normalize_path p) with
  | none => .ok none
  | some ino =>
    match findInode st ino with
    | none => .ok none
    | some i =>
      if i.mode &&& S_IFMT ≠ S_IFLNK then .error .NotASymlink
      else
        match st.symlinks.find? (fun s => s.ino = ino) with
        | some s => .ok (some s.target)
        | none => .ok none

/-- `Path::parent().unwrap_or(Path::new("/"))` on the normalized absolute
paths that `stat` feeds it. -/
def pathParent (p : String) : String :=
  let comps := (splitOnSlash p.data).filter (fun s => s ≠ [])
  if comps.length ≤ 1 then "/"
  else ⟨'/' :: joinSegs comps.dropLast⟩

/-- `Path::join` for the relative-target case of `stat`. -/
def joinRel (base target : String) : String :=
  if base = "/" then "/" ++ target else base ++ "/" ++ target

/-- The symlink-following loop of `Filesystem::stat`; the fuel is the
remaining number of loop iterations. -/
def statLoop (st : FsState) : Nat → String → Except FsErr (Option Stats)
  | 0, _ => .error .TooManySymlinks
  | n + 1, path =>
    match resolve_path st path with
    | none => .ok none
    | some ino =>
      match findInode st ino with
      | none => .ok none
      | some i =>
        if i.mode &&& S_IFMT = S_IFLNK then
          match readlink st path with
          | .error e => .error e
          | .ok none => .error .SymlinkHasNoTarget
          | .ok (some target) =>
            let next :=
              if target.data.head? = some '/' then target
              else joinRel (pathParent path) target
            statLoop st n (normalize_path next)
        else .ok (some (buildStats st i))

/-- `Filesystem::stat`. -/
def stat (st : FsState) (p : String) : Except FsErr (Option Stats) :=
  statLoop st max_symlink_depth (normalize_path p)

/-! ## Write operations

Every SQL statement that writes runs on its own (no transaction in the
source).  `withFuel` spends one fuel unit on one such statement: with fuel
left, the statement's effect is applied and the continuation runs; with no
fuel, the store fails at that statement and the state reached so far is kept. -/

abbrev WriteResult := Except FsErr Unit × FsState × Nat

def withFuel (st : FsState) (fuel : Nat) (eff : FsState → FsState)
    (k : FsState → Nat → WriteResult) : WriteResult :=
  match fuel with
  | 0 => (.error .StoreError, st, 0)
  | n + 1 => k (eff st) n

/-- The write phase of `Filesystem::mkdir` (`ino` is the id the
`fs_inode` insert allocates, reported by `last_insert_rowid`): insert the
inode row, then the dentry row. -/
def mkdirTail (now : Int) (name : String) (parent_ino ino : Int)
    (st : FsState) (fuel : Nat) : WriteResult :=
  withFuel st fuel
    (fun st => { st with
      inodes := st.inodes ++ [⟨ino, DEFAULT_DIR_MODE, 0, 0, 0, now, now, now⟩]
      nextIno := st.nextIno + 1 }) (fun st fuel =>
  withFuel st fuel
    (fun st => { st with dentries := st.dentries ++ [⟨name, parent_ino, ino⟩] })
    (fun st fuel => (.ok (), st, fuel)))

/-- `Filesystem::mkdir`. -/
def mkdir (now : Int) (p : String) (st : FsState) (fuel : Nat) : WriteResult :=
  if (split_path (normalize_path p)).isEmpty then (.error .CannotCreateRootDir, st, fuel)
  else
    match resolve_path st (parent_path_of (split_path (normalize_path p))) with
    | none => (.error .ParentNotFound, st, fuel)
    | some parent_ino =>
      if (resolve_path st (normalize_path p)).isSome then (.error .AlreadyExists, st, fuel)
      else
        mkdirTail now ((split_path (normalize_path p)).getLastD "") parent_ino
          st.nextIno st fuel

/-- Structural worker for `chunksOf`: the first argument is fuel, for which
the list length suffices whenever the chunk size is positive. -/
def chunksOfGo (cs : Nat) : Nat → List Nat → List (List Nat)
  | _, [] => []
  | 0, _ :: _ => []
  | f + 1, x :: xs => ((x :: xs).take cs) :: chunksOfGo cs f ((x :: xs).drop cs)

/-- `<[u8]>::chunks(cs)`: slices of `cs` bytes, the last one possibly
shorter.  `chunks(0)` panics in Rust; the operations only call this with the
positive configured chunk size. -/
def chunksOf (cs : Nat) (b : List Nat) : List (List Nat) :=
  chunksOfGo cs b.length b

/-- The chunk-insertion loop of `write_file`: one `INSERT INTO fs_data` per
chunk, with consecutive `chunk_index` values starting at `i`. -/
def insertChunks (ino : Int) : List (List Nat) → Nat → FsState → Nat → WriteResult
  | [], _, st, fuel => (.ok (), st, fuel)
  | c :: rest, i, st, fuel =>
    withFuel st fuel
      (fun st => { st with data := st.data ++ [⟨ino, i, c⟩] })
      (fun st fuel => insertChunks ino rest (i + 1) st fuel)

/-- The closing phase of `Filesystem::write_file` after the target inode is
known: write the chunks (one insert each, skipped for empty data), then
update size and mtime. -/
def writeTail (now : Int) (cs : Nat) (b : List Nat) (ino : Int)
    (st : FsState) (fuel : Nat) : WriteResult :=
  match (if b.isEmpty then ((.ok () : Except FsErr Unit), st, fuel)
         else insertChunks ino (chunksOf cs b) 0 st fuel) with
  | (.error e, st, fuel) => (.error e, st, fuel)
  | (.ok _, st, fuel) =>
    -- UPDATE fs_inode SET size = ?, mtime = ? WHERE ino = ?
    withFuel st fuel
      (fun st => { st with
        inodes := st.inodes.map (fun i =>
          if i.ino = ino then { i with size := (b.length : Int), mtime := now }
          else i) })
      (fun st fuel => (.ok (), st, fuel))

/-- The overwrite branch of `write_file` (target exists): delete the old
chunk rows, then run the closing phase. -/
def writeExisting (now : Int) (cs : Nat) (b : List Nat) (ino : Int)
    (st : FsState) (fuel : Nat) : WriteResult :=
  withFuel st fuel
    (fun st => { st with data := st.data.filter (fun r => ¬ r.ino = ino) })
    (fun st fuel => writeTail now cs b ino st fuel)

/-- The create branch of `write_file` (target absent): insert the inode row
(`ino` is the allocated id) and the dentry row, then run the closing phase. -/
def writeCreate (now : Int) (cs : Nat) (b : List Nat) (name : String)
    (parent_ino ino : Int) (st : FsState) (fuel : Nat) : WriteResult :=
  withFuel st fuel
    (fun st => { st with
      inodes := st.inodes ++
        [⟨ino, DEFAULT_FILE_MODE, 0, 0, (b.length : Int), now, now, now⟩]
      nextIno := st.nextIno + 1 }) (fun st fuel =>
  withFuel st fuel
    (fun st => { st with dentries := st.dentries ++ [⟨name, parent_ino, ino⟩] })
    (fun st fuel => writeTail now cs b ino st fuel))

/-- `Filesystem::write_file`: whole-file overwrite.  Note that the source
checks neither that the parent is a directory nor that the target is not. -/
def write_file (now : Int) (cs : Nat) (p : String) (b : List Nat)
    (st : FsState) (fuel : Nat) : WriteResult :=
  if (split_path (normalize_path p)).isEmpty then (.error .CannotWriteToRoot, st, fuel)
  else
    match resolve_path st (parent_path_of (split_path (normalize_path p))) with
    | none => (.error .ParentNotFound, st, fuel)
    | some parent_ino =>
      match resolve_path st (normalize_path p) with
      | some ino => writeExisting now cs b ino st fuel
      | none =>
        writeCreate now cs b ((split_path (normalize_path p)).getLastD "") parent_ino
          st.nextIno st fuel

/-- The write phase of `Filesystem::symlink`: insert the inode row (mode
`S_IFLNK | 0o777`, size the byte length of the target), the `fs_symlink` row,
then the dentry. -/
def symlinkTail (now : Int) (target : String) (name : String) (parent_ino ino : Int)
    (st : FsState) (fuel : Nat) : WriteResult :=
  withFuel st fuel
    (fun st => { st with
      inodes := st.inodes ++
        [⟨ino, S_IFLNK ||| 0o777, 0, 0, (target.utf8ByteSize : Int), now, now, now⟩]
      nextIno := st.nextIno + 1 }) (fun st fuel =>
  withFuel st fuel
    (fun st => { st with symlinks := st.symlinks ++ [⟨ino, target⟩] })
    (fun st fuel =>
  withFuel st fuel
    (fun st => { st with dentries := st.dentries ++ [⟨name, parent_ino, ino⟩] })
    (fun st fuel => (.ok (), st, fuel))))

/-- `Filesystem::symlink`. -/
def symlink (now : Int) (target linkpath : String) (st : FsState) (fuel : Nat) :
    WriteResult :=
  if (split_path (normalize_path linkpath)).isEmpty then
    (.error .CannotSymlinkAtRoot, st, fuel)
  else
    match resolve_path st (parent_path_of (split_path (normalize_path linkpath))) with
    | none => (.error .ParentNotFound, st, fuel)
    | some parent_ino =>
      if (resolve_path st (normalize_path linkpath)).isSome then
        (.error .AlreadyExists, st, fuel)
      else
        symlinkTail now target ((split_path (normalize_path linkpath)).getLastD "")
          parent_ino st.nextIno st fuel

/-- The write phase of `Filesystem::remove`: delete the one
`(parent_ino, name)` dentry, then, if the surviving link count of `ino` is
zero, cascade to the data chunks, the symlink row and the inode row. -/
def removeTail (ino parent_ino : Int) (name : String)
    (st : FsState) (fuel : Nat) : WriteResult :=
  withFuel st fuel
    (fun st => { st with
      dentries := st.dentries.filter
        (fun d => ¬ (d.parent_ino = parent_ino ∧ d.name = name)) })
    (fun st fuel =>
  if get_link_count st ino = 0 then
    withFuel st fuel
      (fun st => { st with data := st.data.filter (fun r => ¬ r.ino = ino) })
      (fun st fuel =>
    withFuel st fuel
      (fun st => { st with symlinks := st.symlinks.filter (fun s => ¬ s.ino = ino) })
      (fun st fuel =>
    withFuel st fuel
      (fun st => { st with inodes := st.inodes.filter (fun i => ¬ i.ino = ino) })
      (fun st fuel => (.ok (), st, fuel))))
  else (.ok (), st, fuel))

/-- `Filesystem::remove`. -/
def remove (p : String) (st : FsState) (fuel : Nat) : WriteResult :=
  if (split_path (normalize_path p)).isEmpty then (.error .CannotRemoveRoot, st, fuel)
  else
    match resolve_path st (normalize_path p) with
    | none => (.error .PathNotFound, st, fuel)
    | some ino =>
      if ino = ROOT_INO then (.error .CannotRemoveRoot, st, fuel)
      else if 0 < childCount st ino then (.error .DirectoryNotEmpty, st, fuel)
      else
        match resolve_path st (parent_path_of (split_path (normalize_path p))) with
        | none => (.error .ParentNotFound, st, fuel)
        | some parent_ino =>
          removeTail ino parent_ino ((split_path (normalize_path p)).getLastD "")
            st fuel

/-! ## Auxiliary definitions for the statements and proofs -/

/-- The data rows the chunk-insertion loop of `write_file` produces for the
chunk list, starting at index `i`. -/
def chunkRowsFrom (ino : Int) : Nat → List (List Nat) → List DataRow
  | _, [] => []
  | i, c :: rest => ⟨ino, i, c⟩ :: chunkRowsFrom ino (i + 1) rest

/-- Store sanity: every row id is below the AUTOINCREMENT counter (SQLite
AUTOINCREMENT never hands out an id twice), and every dentry references an
existing inode row (invariant I2 of the data model).  `freshState` satisfies
this, and it is preserved by the operations. -/
def WF (st : FsState) : Prop :=
  (∀ i ∈ st.inodes, i.ino < st.nextIno) ∧
  (∀ d ∈ st.dentries, d.ino < st.nextIno ∧ ∃ i ∈ st.inodes, i.ino = d.ino) ∧
  (∀ r ∈ st.data, r.ino < st.nextIno) ∧
  (∀ s ∈ st.symlinks, s.ino < st.nextIno)

instance (st : FsState) : Decidable (WF st) := by
  unfold WF; infer_instance

instance {ε α : Type} [DecidableEq ε] [DecidableEq α] : DecidableEq (Except ε α) :=
  fun x y =>
    match x, y with
    | .ok a, .ok b => decidable_of_iff (a = b) (by simp)
    | .ok _, .error _ => isFalse (by simp)
    | .error _, .ok _ => isFalse (by simp)
    | .error e, .error f => decidable_of_iff (e = f) (by simp)

/-- A clean path segment: nonempty, no separator, not `.` or `..`.  The
segments of a canonical path are clean. -/
def CleanSeg (s : List Char) : Prop :=
  s ≠ [] ∧ '/' ∉ s ∧ s ≠ ['.'] ∧ s ≠ ['.', '.']

/-- A canonical path: `/` alone, or `/` followed by clean segments joined
with `/`.  `normalize_path` maps every absolute input to a canonical path,
and is the identity on canonical paths. -/
def Canonical (l : List Char) : Prop :=
  l = ['/'] ∨ ∃ segs, segs ≠ [] ∧ (∀ s ∈ segs, CleanSeg s) ∧ l = '/' :: joinSegs segs

/-! ## Permission checking (`cli/src/nfsserve/permissions.rs`) -/

def S_IRUSR : Nat := 0o400
def S_IWUSR : Nat := 0o200
def S_IXUSR : Nat := 0o100
def S_IRGRP : Nat := 0o040
def S_IWGRP : Nat := 0o020
def S_IXGRP : Nat := 0o010
def S_IROTH : Nat := 0o004
def S_IWOTH : Nat := 0o002
def S_IXOTH : Nat := 0o001

def ACCESS3_READ : Nat := 0x0001
def ACCESS3_LOOKUP : Nat := 0x0002
def ACCESS3_MODIFY : Nat := 0x0004
def ACCESS3_EXTEND : Nat := 0x0008
def ACCESS3_DELETE : Nat := 0x0010
def ACCESS3_EXECUTE : Nat := 0x0020

/-- NFSv3 file types (`ftype3`); the permission code only distinguishes
`NF3DIR` from the rest. -/
inductive ftype3 where
  | NF3REG | NF3DIR | NF3BLK | NF3CHR | NF3LNK | NF3SOCK | NF3FIFO
deriving DecidableEq, Repr

structure specdata3 where
  specdata1 : Nat
  specdata2 : Nat
deriving DecidableEq, Repr

structure nfstime3 where
  seconds : Nat
  nseconds : Nat
deriving DecidableEq, Repr

/-- NFSv3 file attributes (`fattr3`), with the fields the source constructs. -/
structure fattr3 where
  ftype : ftype3
  mode : Nat
  nlink : Nat
  uid : Nat
  gid : Nat
  size : Nat
  used : Nat
  rdev : specdata3
  fsid : Nat
  fileid : Nat
  atime : nfstime3
  mtime : nfstime3
  ctime : nfstime3
deriving DecidableEq, Repr

/-- AUTH_UNIX credentials (`auth_unix`). -/
structure auth_unix where
  stamp : Nat
  machinename : List Nat
  uid : Nat
  gid : Nat
  gids : List Nat
deriving DecidableEq, Repr

inductive Permission where
  | Read | Write | Execute
deriving DecidableEq, Repr

/-- `is_in_group`: the primary gid matches or the gid is an auxiliary one. -/
def is_in_group (auth : auth_unix) (gid : Nat) : Bool :=
  auth.gid == gid || auth.gids.contains gid

/-- `check_permission`: root always passes; otherwise the owner, group or
other permission bits of the mode are tested. -/
def check_permission (auth : auth_unix) (attr : fattr3) (perm : Permission) : Bool :=
  let mode := attr.mode
  if auth.uid == 0 then true
  else
    let bits :=
      if auth.uid == attr.uid then (S_IRUSR, S_IWUSR, S_IXUSR)
      else if is_in_group auth attr.gid then (S_IRGRP, S_IWGRP, S_IXGRP)
      else (S_IROTH, S_IWOTH, S_IXOTH)
    match perm with
    | .Read => mode &&& bits.1 != 0
    | .Write => mode &&& bits.2.1 != 0
    | .Execute => mode &&& bits.2.2 != 0

def can_read (auth : auth_unix) (attr : fattr3) : Bool :=
  check_permission auth attr .Read

def can_write (auth : auth_unix) (attr : fattr3) : Bool :=
  check_permission auth attr .Write

def can_execute (auth : auth_unix) (attr : fattr3) : Bool :=
  check_permission auth attr .Execute

/-- `compute_access`: the six ACCESS3 bits, each granted only when requested
and allowed (`result |= bit` pattern of the source). -/
def compute_access (auth : auth_unix) (attr : fattr3) (requested : Nat) : Nat :=
  let is_dir := attr.ftype = ftype3.NF3DIR
  let result : Nat := 0
  let result :=
    if requested &&& ACCESS3_READ ≠ 0 ∧ can_read auth attr
    then result ||| ACCESS3_READ else result
  let result :=
    if requested &&& ACCESS3_LOOKUP ≠ 0 ∧ (is_dir ∧ can_execute auth attr)
    then result ||| ACCESS3_LOOKUP else result
  let result :=
    if requested &&& ACCESS3_MODIFY ≠ 0 ∧ can_write auth attr
    then result ||| ACCESS3_MODIFY else result
  let result :=
    if requested &&& ACCESS3_EXTEND ≠ 0 ∧ can_write auth attr
    then result ||| ACCESS3_EXTEND else result
  let result :=
    if requested &&& ACCESS3_DELETE ≠ 0 ∧ (is_dir ∧ can_write auth attr)
    then result ||| ACCESS3_DELETE else result
  let result :=
    if requested &&& ACCESS3_EXECUTE ≠ 0 ∧ (¬ is_dir ∧ can_execute auth attr)
    then result ||| ACCESS3_EXECUTE else result
  result

/-- `can_modify_directory`: write and execute on the directory. -/
def can_modify_directory (auth : auth_unix) (attr : fattr3) : Bool :=
  can_write auth attr && can_execute auth attr

/-- `is_owner`: root or the owning uid. -/
def is_owner (auth : auth_unix) (attr : fattr3) : Bool :=
  auth.uid == 0 || auth.uid == attr.uid

/-! ### Concrete scenario states used by the counterexamples and witnesses -/

/-- `write_file("a/../b", [7])` on a fresh filesystem: the write folds the
`..` (it targets `/b`), but `read_file` resolves the literal segments. -/
def writeRelDot : WriteResult := write_file 1 4096 "a/../b" [7] (freshState 0) 10

/-- `symlink("/a", "/b")` on a fresh filesystem: `/b` is a dangling symlink
to `/a`. -/
def linkToA : WriteResult := symlink 1 "/a" "/b" (freshState 0) 10

/-- `write_file("/b", [9])` after `linkToA`: the bytes land on the symlink's
own inode. -/
def writeThroughLink : WriteResult := write_file 2 4096 "/b" [9] linkToA.2.1 10

/-- `symlink("/b", "/a")` after `linkToA`: the two symlinks form a loop. -/
def loopState : FsState := (symlink 2 "/b" "/a" linkToA.2.1 10).2.1

/-- `mkdir("/d")` on a fresh filesystem. -/
def mkdirD : WriteResult := mkdir 1 "/d" (freshState 0) 10

/-- `write_file("/d", [42])` on the directory created by `mkdirD`. -/
def writeToDir : WriteResult := write_file 2 4096 "/d" [42] mkdirD.2.1 10

/-- `write_file("/f", [])` on a fresh filesystem: `/f` is a regular file. -/
def fileF : WriteResult := write_file 1 4096 "/f" [] (freshState 0) 10

/-- `mkdir("/f/d")` where `/f` is the regular file created by `fileF`. -/
def mkdirUnderFile : WriteResult := mkdir 2 "/f/d" fileF.2.1 10

/-- `mkdir("/d")` on a fresh filesystem when the store fails at the second
statement: the `fs_inode` insert commits, the `fs_dentry` insert does not. -/
def mkdirLowFuel : WriteResult := mkdir 0 "/d" (freshState 0) 1

/-- `write_file("/f", [1, 2])` on a fresh filesystem. -/
def fileF12 : WriteResult := write_file 1 4096 "/f" [1, 2] (freshState 0) 10

/-! ## Theorems

### Chunking lemmas -/

theorem chunksOfGo_fuel (cs : Nat) (hcs : 0 < cs) :
    ∀ (f₁ f₂ : Nat) (b : List Nat), b.length ≤ f₁ → b.length ≤ f₂ →
      chunksOfGo cs f₁ b = chunksOfGo cs f₂ b := by
  intro f₁
  induction f₁ with
  | zero =>
    intro f₂ b h1 _
    have hb : b = [] := List.eq_nil_of_length_eq_zero (Nat.le_zero.mp h1)
    subst hb
    cases f₂ <;> rfl
  | succ f ih =>
    intro f₂ b h1 h2
    cases b with
    | nil => cases f₂ <;> rfl
    | cons x xs =>
      cases f₂ with
      | zero => simp at h2
      | succ g =>
        simp only [chunksOfGo]
        congr 1
        refine ih g ((x :: xs).drop cs) ?_ ?_ <;>
          · simp only [List.length_drop, List.length_cons] at *
            omega

theorem chunksOf_cons (cs : Nat) (hcs : 0 < cs) (x : Nat) (xs : List Nat) :
    chunksOf cs (x :: xs) =
      ((x :: xs).take cs) :: chunksOf cs ((x :: xs).drop cs) := by
  show chunksOfGo cs (x :: xs).length (x :: xs) = _
  simp only [List.length_cons, chunksOfGo]
  congr 1
  exact chunksOfGo_fuel cs hcs _ _ _
    (by simp only [List.length_drop, List.length_cons]; omega) le_rfl

theorem chunksOf_flatten (cs : Nat) (hcs : 0 < cs) (b : List Nat) :
    (chunksOf cs b).flatten = b := by
  suffices h : ∀ (n : Nat) (b : List Nat), b.length ≤ n → (chunksOf cs b).flatten = b from
    h b.length b le_rfl
  intro n
  induction n with
  | zero =>
    intro b hb
    have : b = [] := List.eq_nil_of_length_eq_zero (Nat.le_zero.mp hb)
    subst this; rfl
  | succ n ih =>
    intro b hb
    cases b with
    | nil => rfl
    | cons x xs =>
      rw [chunksOf_cons cs hcs, List.flatten_cons,
        ih _ (by simp only [List.length_drop, List.length_cons] at *; omega),
        List.take_append_drop]

/-! ### Path-string lemmas -/

theorem trimEndSlashes_cons (c : Char) (rest : List Char) :
    trimEndSlashes (c :: rest) =
      match trimEndSlashes rest with
      | [] => if c = '/' then [] else [c]
      | r => c :: r := rfl

theorem splitOnSlash_cons (c : Char) (rest : List Char) :
    splitOnSlash (c :: rest) =
      match splitOnSlash rest with
      | [] => [[]]
      | seg :: segs => if c = '/' then [] :: seg :: segs else (c :: seg) :: segs := rfl

theorem trimEndSlashes_head (p : List Char) :
    trimEndSlashes p = [] ∨ (trimEndSlashes p).head? = p.head? := by
  cases p with
  | nil => exact .inl rfl
  | cons c rest =>
    simp only [trimEndSlashes]
    cases htr : trimEndSlashes rest with
    | nil =>
      by_cases hc : c = '/'
      · exact .inl (by simp [hc])
      · exact .inr (by simp [hc])
    | cons a as => exact .inr (by simp)

theorem trimEndSlashes_eq_self (p : List Char) (h : p.getLast? ≠ some '/') :
    trimEndSlashes p = p := by
  induction p with
  | nil => rfl
  | cons c rest ih =>
    cases rest with
    | nil =>
      have hc : c ≠ '/' := by simpa using h
      simp [trimEndSlashes, hc]
    | cons a as =>
      have h' : (a :: as).getLast? ≠ some '/' := by
        rwa [List.getLast?_cons_cons] at h
      rw [trimEndSlashes_cons, ih h']

theorem splitOnSlash_ne_nil (l : List Char) : splitOnSlash l ≠ [] := by
  cases l with
  | nil => simp [splitOnSlash]
  | cons c rest =>
    simp only [splitOnSlash]
    cases h : splitOnSlash rest with
    | nil => simp
    | cons s ss => by_cases hc : c = '/' <;> simp [hc]

theorem splitOnSlash_no_slash (l : List Char) : ∀ s ∈ splitOnSlash l, '/' ∉ s := by
  induction l with
  | nil =>
    intro s hs
    simp only [splitOnSlash, List.mem_singleton] at hs
    subst hs; simp
  | cons c rest ih =>
    intro s hs
    rw [splitOnSlash_cons] at hs
    cases h : splitOnSlash rest with
    | nil => exact absurd h (splitOnSlash_ne_nil rest)
    | cons t ts =>
      rw [h] at hs ih
      have hs' : s ∈ (if c = '/' then [] :: t :: ts else (c :: t) :: ts) := hs
      by_cases hc : c = '/'
      · rw [if_pos hc] at hs'
        rcases List.mem_cons.mp hs' with rfl | hs'
        · simp
        · exact ih s hs'
      · rw [if_neg hc] at hs'
        rcases List.mem_cons.mp hs' with rfl | hs'
        · intro hmem
          rcases List.mem_cons.mp hmem with he | hmem
          · exact hc he.symm
          · exact ih t (List.mem_cons_self t ts) hmem
        · exact ih s (List.mem_cons_of_mem t hs')

theorem splitOnSlash_of_no_slash (s : List Char) (h : '/' ∉ s) :
    splitOnSlash s = [s] := by
  induction s with
  | nil => rfl
  | cons c rest ih =>
    have hc : ¬ c = '/' := fun e => h (by simp [e])
    rw [splitOnSlash_cons, ih (fun hm => h (List.mem_cons_of_mem c hm))]
    show (if c = '/' then [[], rest] else [c :: rest]) = [c :: rest]
    rw [if_neg hc]

theorem splitOnSlash_append (s l : List Char) (hs : '/' ∉ s) :
    ∀ g gs, splitOnSlash l = g :: gs → splitOnSlash (s ++ l) = (s ++ g) :: gs := by
  induction s with
  | nil => intro g gs h; simpa using h
  | cons c cs ih =>
    intro g gs h
    have hc : ¬ c = '/' := fun e => hs (by simp [e])
    rw [List.cons_append, splitOnSlash_cons,
      ih (fun hm => hs (List.mem_cons_of_mem c hm)) g gs h]
    show (if c = '/' then [] :: (cs ++ g) :: gs else (c :: (cs ++ g)) :: gs)
      = ((c :: cs) ++ g) :: gs
    rw [if_neg hc, List.cons_append]

theorem splitOnSlash_joinSegs :
    ∀ segs : List (List Char), segs ≠ [] → (∀ s ∈ segs, '/' ∉ s) →
      splitOnSlash (joinSegs segs) = segs := by
  intro segs
  induction segs with
  | nil => intro h; exact absurd rfl h
  | cons s rest ih =>
    intro _ hns
    cases rest with
    | nil =>
      simp only [joinSegs]
      exact splitOnSlash_of_no_slash s (hns s (by simp))
    | cons t ts =>
      have hJ : joinSegs (s :: t :: ts) = s ++ '/' :: joinSegs (t :: ts) := rfl
      rw [hJ]
      have h1 : splitOnSlash ('/' :: joinSegs (t :: ts)) = [] :: t :: ts := by
        rw [splitOnSlash_cons, ih (by simp) (fun x hx => hns x (List.mem_cons_of_mem s hx))]
        show (if '/' = '/' then [] :: t :: ts else ('/' :: t) :: ts) = [] :: t :: ts
        rw [if_pos rfl]
      have h2 := splitOnSlash_append s ('/' :: joinSegs (t :: ts))
        (hns s (by simp)) [] (t :: ts) h1
      simpa using h2

theorem dotFold_clean (cs : List (List Char)) :
    ∀ acc : List (List Char), (∀ s ∈ acc, CleanSeg s) →
      (∀ s ∈ cs, s ≠ [] ∧ '/' ∉ s) →
      ∀ s ∈ dotFold cs acc, CleanSeg s := by
  induction cs with
  | nil =>
    intro acc hacc _
    simpa [dotFold] using hacc
  | cons c rest ih =>
    intro acc hacc hcs
    simp only [dotFold]
    by_cases h1 : c = ['.']
    · rw [if_pos h1]
      exact ih acc hacc (fun s hs => hcs s (List.mem_cons_of_mem c hs))
    · rw [if_neg h1]
      by_cases h2 : c = ['.', '.']
      · rw [if_pos h2]
        exact ih acc.dropLast (fun s hs => hacc s (List.dropLast_subset acc hs))
          (fun s hs => hcs s (List.mem_cons_of_mem c hs))
      · rw [if_neg h2]
        refine ih (acc ++ [c]) ?_ (fun s hs => hcs s (List.mem_cons_of_mem c hs))
        intro s hs
        rcases List.mem_append.mp hs with hs | hs
        · exact hacc s hs
        · rcases List.mem_singleton.mp hs with rfl
          have hc := hcs s (List.mem_cons_self s rest)
          exact ⟨hc.1, hc.2, h1, h2⟩

theorem dotFold_no_dots (cs : List (List Char))
    (h : ∀ s ∈ cs, s ≠ ['.'] ∧ s ≠ ['.', '.']) :
    ∀ acc, dotFold cs acc = acc ++ cs := by
  induction cs with
  | nil => intro acc; simp [dotFold]
  | cons c rest ih =>
    intro acc
    have hc := h c (by simp)
    simp only [dotFold, if_neg hc.1, if_neg hc.2]
    rw [ih (fun s hs => h s (List.mem_cons_of_mem c hs))]
    simp

theorem joinSegs_ne_nil (segs : List (List Char)) (h0 : segs ≠ [])
    (h : ∀ s ∈ segs, s ≠ []) : joinSegs segs ≠ [] := by
  cases segs with
  | nil => exact absurd rfl h0
  | cons s rest =>
    cases rest with
    | nil => exact h s (by simp)
    | cons t ts =>
      show s ++ '/' :: joinSegs (t :: ts) ≠ []
      simp

theorem joinSegs_getLast_ne_slash :
    ∀ segs : List (List Char), segs ≠ [] → (∀ s ∈ segs, CleanSeg s) →
      (joinSegs segs).getLast? ≠ some '/' := by
  intro segs
  induction segs with
  | nil => intro h; exact absurd rfl h
  | cons s rest ih =>
    intro _ hclean
    cases rest with
    | nil =>
      simp only [joinSegs]
      intro hlast
      obtain ⟨hh, heq⟩ :=
        List.mem_getLast?_eq_getLast (l := s) (x := '/') (Option.mem_def.mpr hlast)
      exact (hclean s (by simp)).2.1 (heq ▸ List.getLast_mem hh)
    | cons t ts =>
      have hJ : joinSegs (s :: t :: ts) = s ++ '/' :: joinSegs (t :: ts) := rfl
      rw [hJ]
      have hJne : joinSegs (t :: ts) ≠ [] :=
        joinSegs_ne_nil (t :: ts) (by simp)
          (fun x hx => (hclean x (List.mem_cons_of_mem s hx)).1)
      cases hj : joinSegs (t :: ts) with
      | nil => exact absurd hj hJne
      | cons a as =>
        rw [List.getLast?_append_of_ne_nil _ (by simp), List.getLast?_cons_cons, ← hj]
        exact ih (by simp) (fun x hx => hclean x (List.mem_cons_of_mem s hx))

/-! ### Canonicality of normalization -/

theorem normalizeChars_canonical_fix (l : List Char) (h : Canonical l) :
    normalizeChars l = l := by
  rcases h with rfl | ⟨segs, hne, hclean, rfl⟩
  · decide
  · have hnoslash : ∀ s ∈ segs, '/' ∉ s := fun s hs => (hclean s hs).2.1
    have hnonempty : ∀ s ∈ segs, s ≠ [] := fun s hs => (hclean s hs).1
    have hJne : joinSegs segs ≠ [] := joinSegs_ne_nil segs hne hnonempty
    have hlast : ('/' :: joinSegs segs).getLast? ≠ some '/' := by
      cases hj : joinSegs segs with
      | nil => exact absurd hj hJne
      | cons a as =>
        rw [List.getLast?_cons_cons, ← hj]
        exact joinSegs_getLast_ne_slash segs hne hclean
    have hsplit : splitOnSlash ('/' :: joinSegs segs) = [] :: segs := by
      rw [splitOnSlash_cons, splitOnSlash_joinSegs segs hne hnoslash]
      cases segs with
      | nil => exact absurd rfl hne
      | cons a as =>
        show (if '/' = '/' then [] :: a :: as else ('/' :: a) :: as) = [] :: a :: as
        rw [if_pos rfl]
    have hfilter : (([] : List Char) :: segs).filter (fun s => s ≠ []) = segs := by
      rw [List.filter_cons]
      simp only [decide_not]
      rw [if_neg (by simp)]
      exact List.filter_eq_self.mpr (fun a ha => by simpa using hnonempty a ha)
    simp only [normalizeChars, trimEndSlashes_eq_self _ hlast]
    rw [if_neg (by simp), if_pos (by simp)]
    simp only [hsplit, hfilter,
      dotFold_no_dots segs (fun s hs => ⟨(hclean s hs).2.2.1, (hclean s hs).2.2.2⟩) []]
    rw [if_neg (by simpa using hne)]
    simp

theorem normalizeChars_abs_canonical (p : List Char) (h : p.head? = some '/') :
    Canonical (normalizeChars p) := by
  cases htr : trimEndSlashes p with
  | nil =>
    left
    simp [normalizeChars, htr]
  | cons c rest =>
    have hc : c = '/' := by
      rcases trimEndSlashes_head p with h0 | h0
      · rw [htr] at h0; cases h0
      · rw [htr, h] at h0
        simpa using h0
    subst hc
    have hcomps : ∀ s ∈ (splitOnSlash ('/' :: rest)).filter (fun s => s ≠ []),
        s ≠ [] ∧ '/' ∉ s := by
      intro s hs
      have hmem := List.mem_filter.mp hs
      refine ⟨by simpa using hmem.2, splitOnSlash_no_slash _ s hmem.1⟩
    have hclean : ∀ s ∈ dotFold
        ((splitOnSlash ('/' :: rest)).filter (fun s => s ≠ [])) [], CleanSeg s :=
      dotFold_clean _ [] (by simp) hcomps
    simp only [normalizeChars, htr]
    rw [if_neg (by simp), if_pos (by simp)]
    cases hr : dotFold ((splitOnSlash ('/' :: rest)).filter (fun s => s ≠ [])) [] with
    | nil =>
      left
      simp [hr]
    | cons a as =>
      right
      refine ⟨a :: as, by simp, ?_, ?_⟩
      · rw [← hr]; exact hclean
      · rw [if_neg (by simp)]

theorem normalizeChars_head (p : List Char) :
    (normalizeChars p).head? = some '/' := by
  simp only [normalizeChars]
  split
  · rfl
  · split
    · split <;> rfl
    · rfl

theorem normalize_path_canonical (p : String) :
    Canonical (normalize_path (normalize_path p)).data :=
  normalizeChars_abs_canonical _ (normalizeChars_head p.data)

theorem filter_splitOnSlash_canonical (segs : List (List Char)) (hne : segs ≠ [])
    (hclean : ∀ s ∈ segs, CleanSeg s) :
    (splitOnSlash ('/' :: joinSegs segs)).filter (fun s => s ≠ []) = segs := by
  have hsplit : splitOnSlash ('/' :: joinSegs segs) = [] :: segs := by
    rw [splitOnSlash_cons,
      splitOnSlash_joinSegs segs hne (fun s hs => (hclean s hs).2.1)]
    cases segs with
    | nil => exact absurd rfl hne
    | cons a as =>
      show (if '/' = '/' then [] :: a :: as else ('/' :: a) :: as) = [] :: a :: as
      rw [if_pos rfl]
  rw [hsplit, List.filter_cons]
  simp only [decide_not]
  rw [if_neg (by simp)]
  exact List.filter_eq_self.mpr (fun a ha => by simpa using (hclean a ha).1)

/-- What `split_path` returns on a string whose character list is canonical:
nothing for `/`, otherwise precisely the segments. -/
theorem split_path_eq_of_canonical (q : String) (h : Canonical q.data) :
    (q.data = ['/'] ∧ split_path q = []) ∨
    (∃ segs, segs ≠ [] ∧ (∀ s ∈ segs, CleanSeg s) ∧ q.data = '/' :: joinSegs segs ∧
      split_path q = segs.map (fun s => (⟨s⟩ : String))) := by
  rcases h with hq | ⟨segs, hne, hclean, hq⟩
  · left
    refine ⟨hq, ?_⟩
    unfold split_path
    rw [hq]
    rw [normalizeChars_canonical_fix ['/'] (.inl rfl)]
    rw [if_pos rfl]
  · right
    refine ⟨segs, hne, hclean, hq, ?_⟩
    unfold split_path
    rw [hq, normalizeChars_canonical_fix _ (.inr ⟨segs, hne, hclean, rfl⟩)]
    rw [if_neg ?_, filter_splitOnSlash_canonical segs hne hclean]
    intro he
    injection he with _ he2
    exact joinSegs_ne_nil segs hne (fun s hs => (hclean s hs).1) he2

/-- `split_path` after one normalization pass agrees with `split_path` after
two: the second pass reaches a canonical fixpoint. -/
theorem split_path_normalize (p : String) :
    split_path (normalize_path p) = split_path (normalize_path (normalize_path p)) := by
  unfold split_path
  have h1 : (normalize_path (normalize_path p)).data
      = normalizeChars (normalize_path p).data := rfl
  have hcan : Canonical (normalizeChars (normalize_path p).data) :=
    normalize_path_canonical p
  rw [h1, normalizeChars_canonical_fix _ hcan]

theorem split_path_normalize_clean (p : String) :
    ∀ s ∈ split_path (normalize_path p), CleanSeg s.data := by
  rw [split_path_normalize p]
  rcases split_path_eq_of_canonical _ (normalize_path_canonical p) with
    ⟨_, h⟩ | ⟨segs, _, hclean, _, h⟩
  · rw [h]; intro s hs; cases hs
  · rw [h]
    intro s hs
    rcases List.mem_map.mp hs with ⟨t, ht, rfl⟩
    exact hclean t ht

theorem joinStrings_data (cs : List String) :
    (joinStrings cs).data = joinSegs (cs.map String.data) := by
  induction cs with
  | nil => rfl
  | cons s rest ih =>
    cases rest with
    | nil => rfl
    | cons t ts =>
      show (s ++ "/" ++ joinStrings (t :: ts)).data
        = s.data ++ '/' :: joinSegs ((t :: ts).map String.data)
      rw [String.data_append, String.data_append, ih, List.append_assoc]
      rfl

/-- `split_path` on `"/" ++ join("/")` of clean components gives the
components back; this is how the operations' `parent_path` is resolved. -/
theorem split_path_slash_join (cs : List String) (hne : cs ≠ [])
    (hclean : ∀ s ∈ cs, CleanSeg s.data) :
    split_path ("/" ++ joinStrings cs) = cs := by
  have hmapne : cs.map String.data ≠ [] := by
    intro h
    exact hne (List.map_eq_nil_iff.mp h)
  have hmapclean : ∀ s ∈ cs.map String.data, CleanSeg s := by
    intro s hs
    rcases List.mem_map.mp hs with ⟨t, ht, rfl⟩
    exact hclean t ht
  have hdata : ("/" ++ joinStrings cs).data = '/' :: joinSegs (cs.map String.data) := by
    rw [String.data_append, joinStrings_data]
    rfl
  rcases split_path_eq_of_canonical ("/" ++ joinStrings cs)
      (by rw [hdata]; exact .inr ⟨cs.map String.data, hmapne, hmapclean, rfl⟩) with
    ⟨heq, _⟩ | ⟨segs, hne', hclean', heq, hres⟩
  · rw [hdata] at heq
    injection heq with _ he2
    exact absurd he2 (joinSegs_ne_nil _ hmapne (fun s hs => (hmapclean s hs).1))
  · rw [hdata] at heq
    injection heq with _ he2
    have e1 := splitOnSlash_joinSegs segs hne' (fun s hs => (hclean' s hs).2.1)
    have e2 := splitOnSlash_joinSegs (cs.map String.data) hmapne
      (fun s hs => (hmapclean s hs).2.1)
    rw [he2] at e2
    have hsegs : segs = cs.map String.data := by rw [← e1, e2]
    rw [hres, hsegs, List.map_map]
    have : (fun s => (⟨s⟩ : String)) ∘ String.data = id := by
      funext s
      cases s
      rfl
    rw [this, List.map_id]

/-- `split_path (parent_path_of comps) = comps.dropLast` for the clean
component lists the operations produce. -/
theorem split_path_parent (comps : List String) (hne : comps ≠ [])
    (hclean : ∀ s ∈ comps, CleanSeg s.data) :
    split_path (parent_path_of comps) = comps.dropLast := by
  unfold parent_path_of
  by_cases h1 : comps.length = 1
  · rw [if_pos h1]
    cases comps with
    | nil => cases hne rfl
    | cons a as =>
      have : as = [] := by
        simpa using h1
      subst this
      rw [show split_path "/" = [] from by decide]
      rfl
  · rw [if_neg h1]
    have hdne : comps.dropLast ≠ [] := by
      cases comps with
      | nil => cases hne rfl
      | cons a as =>
        cases as with
        | nil => exact absurd rfl h1
        | cons b bs => simp
    exact split_path_slash_join comps.dropLast hdne
      (fun s hs => hclean s (List.mem_of_mem_dropLast hs))

/-! ### Resolution lemmas -/

theorem resolveComps_append (st : FsState) (xs ys : List String) :
    ∀ i : Int, resolveComps st i (xs ++ ys) =
      match resolveComps st i xs with
      | some j => resolveComps st j ys
      | none => none := by
  induction xs with
  | nil => intro i; rfl
  | cons c rest ih =>
    intro i
    simp only [List.cons_append, resolveComps]
    cases hd : findDentry st i c with
    | some d => exact ih d.ino
    | none => rfl

theorem resolveComps_mem_dentry (st : FsState) :
    ∀ (cs : List String) (i j : Int), cs ≠ [] → resolveComps st i cs = some j →
      ∃ d ∈ st.dentries, d.ino = j := by
  intro cs
  induction cs with
  | nil => intro i j h; exact absurd rfl h
  | cons c rest ih =>
    intro i j _ hres
    simp only [resolveComps] at hres
    cases hd : findDentry st i c with
    | none => rw [hd] at hres; cases hres
    | some d =>
      rw [hd] at hres
      cases rest with
      | nil =>
        simp only [resolveComps, Option.some.injEq] at hres
        exact ⟨d, List.mem_of_find?_eq_some hd, hres⟩
      | cons t ts => exact ih d.ino j (by simp) hres

/-- A successful walk is unaffected by appending a dentry row: every lookup
already found its first matching row. -/
theorem resolveComps_append_dentry (st : FsState) (d' : Dentry) :
    ∀ (cs : List String) (i j : Int), resolveComps st i cs = some j →
      resolveComps { st with dentries := st.dentries ++ [d'] } i cs = some j := by
  intro cs
  induction cs with
  | nil => intro i j h; exact h
  | cons c rest ih =>
    intro i j hres
    simp only [resolveComps] at hres ⊢
    cases hd : findDentry st i c with
    | none => rw [hd] at hres; cases hres
    | some d =>
      rw [hd] at hres
      have hd2 : st.dentries.find?
          (fun e => decide (e.parent_ino = i ∧ e.name = c)) = some d := hd
      have hd' : findDentry { st with dentries := st.dentries ++ [d'] } i c = some d := by
        show (st.dentries ++ [d']).find?
          (fun e => decide (e.parent_ino = i ∧ e.name = c)) = some d
        rw [List.find?_append, hd2]
        rfl
      rw [hd']
      exact ih d.ino j hres

/-- Resolution depends only on the dentry table. -/
theorem resolveComps_congr (st st' : FsState) (h : st'.dentries = st.dentries) :
    ∀ (cs : List String) (i : Int), resolveComps st' i cs = resolveComps st i cs := by
  intro cs
  induction cs with
  | nil => intro i; rfl
  | cons c rest ih =>
    intro i
    simp only [resolveComps]
    have : findDentry st' i c = findDentry st i c := by
      show st'.dentries.find? _ = st.dentries.find? _
      rw [h]
    rw [this]
    cases findDentry st i c with
    | none => rfl
    | some d => exact ih d.ino

/-- The terminal lookup of a walk on a nonempty component list. -/
theorem resolveComps_concat (st : FsState) (cs : List String) (hne : cs ≠ []) (i : Int) :
    resolveComps st i cs =
      match resolveComps st i cs.dropLast with
      | some j =>
        match findDentry st j (cs.getLastD "") with
        | some d => some d.ino
        | none => none
      | none => none := by
  conv_lhs => rw [← List.dropLast_append_getLast hne]
  rw [resolveComps_append]
  have hg : cs.getLast hne = cs.getLastD "" := by
    rw [List.getLastD_eq_getLast?, List.getLast?_eq_getLast cs hne]
    rfl
  cases hpre : resolveComps st i cs.dropLast with
  | none => rfl
  | some j =>
    show resolveComps st j [cs.getLast hne] = _
    rw [hg]
    simp only [resolveComps]

/-! ### Row lookup and sorting lemmas -/

theorem find?_map_update (l : List Inode) (ino : Int) (f : Inode → Inode)
    (hf : ∀ i, (f i).ino = i.ino) :
    (l.map f).find? (fun i => i.ino = ino) =
      (l.find? (fun i => i.ino = ino)).map f := by
  induction l with
  | nil => rfl
  | cons a rest ih =>
    by_cases h : a.ino = ino
    · rw [List.map_cons, List.find?_cons_of_pos _ (by simp [hf, h]),
        List.find?_cons_of_pos _ (by simp [h])]
      rfl
    · rw [List.map_cons, List.find?_cons_of_neg _ (by simp [hf, h]),
        List.find?_cons_of_neg _ (by simp [h]), ih]

theorem ordInsert_of_le (r : DataRow) (l : List DataRow)
    (h : ∀ s ∈ l, r.chunk_index ≤ s.chunk_index) : ordInsert r l = r :: l := by
  cases l with
  | nil => rfl
  | cons s rest => simp [ordInsert, h s (by simp)]

theorem sortByIdx_sorted (l : List DataRow)
    (h : List.Pairwise (fun a b => a.chunk_index ≤ b.chunk_index) l) :
    sortByIdx l = l := by
  induction l with
  | nil => rfl
  | cons r rest ih =>
    obtain ⟨hr, hrest⟩ := List.pairwise_cons.mp h
    simp only [sortByIdx]
    rw [ih hrest]
    exact ordInsert_of_le r rest hr

theorem chunkRowsFrom_mem (ino : Int) :
    ∀ (i : Nat) (cks : List (List Nat)) (r : DataRow),
      r ∈ chunkRowsFrom ino i cks → r.ino = ino ∧ i ≤ r.chunk_index := by
  intro i cks
  induction cks generalizing i with
  | nil => intro r hr; cases hr
  | cons c rest ih =>
    intro r hr
    rcases List.mem_cons.mp hr with rfl | hr
    · exact ⟨rfl, le_rfl⟩
    · obtain ⟨h1, h2⟩ := ih (i + 1) r hr
      exact ⟨h1, by omega⟩

theorem chunkRowsFrom_pairwise (ino : Int) :
    ∀ (i : Nat) (cks : List (List Nat)),
      List.Pairwise (fun a b => a.chunk_index ≤ b.chunk_index)
        (chunkRowsFrom ino i cks) := by
  intro i cks
  induction cks generalizing i with
  | nil => exact List.Pairwise.nil
  | cons c rest ih =>
    refine List.pairwise_cons.mpr ⟨?_, ih (i + 1)⟩
    intro r hr
    have := (chunkRowsFrom_mem ino (i + 1) rest r hr).2
    show i ≤ r.chunk_index
    omega

theorem chunkRowsFrom_map_data (ino : Int) :
    ∀ (i : Nat) (cks : List (List Nat)),
      (chunkRowsFrom ino i cks).map (fun r => r.data) = cks := by
  intro i cks
  induction cks generalizing i with
  | nil => rfl
  | cons c rest ih => simp only [chunkRowsFrom, List.map_cons, ih (i + 1)]

/-- Filtering the produced chunk rows for their own inode keeps them all. -/
theorem chunkRowsFrom_filter_self (ino : Int) (i : Nat) (cks : List (List Nat)) :
    (chunkRowsFrom ino i cks).filter (fun r => r.ino = ino) = chunkRowsFrom ino i cks :=
  List.filter_eq_self.mpr
    (fun r hr => by simpa using (chunkRowsFrom_mem ino i cks r hr).1)

/-! ### Chunk-insertion loop lemmas -/

theorem insertChunks_ok (ino : Int) :
    ∀ (cks : List (List Nat)) (i : Nat) (st : FsState) (fuel : Nat)
      (st' : FsState) (f' : Nat),
      insertChunks ino cks i st fuel = (.ok (), st', f') →
      st' = { st with data := st.data ++ chunkRowsFrom ino i cks } := by
  intro cks
  induction cks with
  | nil =>
    intro i st fuel st' f' h
    simp only [insertChunks, Prod.mk.injEq] at h
    rw [← h.2.1]
    simp [chunkRowsFrom]
  | cons c rest ih =>
    intro i st fuel st' f' h
    cases fuel with
    | zero => simp [insertChunks, withFuel] at h
    | succ f =>
      simp only [insertChunks, withFuel] at h
      have := ih (i + 1) _ f st' f' h
      rw [this]
      simp [chunkRowsFrom, List.append_assoc]

theorem insertChunks_run (ino : Int) :
    ∀ (cks : List (List Nat)) (i : Nat) (st : FsState) (f : Nat),
      insertChunks ino cks i st (cks.length + f) =
        (.ok (), { st with data := st.data ++ chunkRowsFrom ino i cks }, f) := by
  intro cks
  induction cks with
  | nil =>
    intro i st f
    have h1 : ({ st with data := st.data ++ chunkRowsFrom ino i [] } : FsState) = st := by
      show ({ st with data := st.data ++ [] } : FsState) = st
      rw [List.append_nil]
    rw [h1]
    show ((Except.ok () : Except FsErr Unit), st, 0 + f)
      = ((Except.ok () : Except FsErr Unit), st, f)
    rw [Nat.zero_add]
  | cons c rest ih =>
    intro i st f
    have harith : (c :: rest).length + f = (rest.length + f) + 1 := by
      simp only [List.length_cons]; omega
    rw [harith]
    show insertChunks ino (c :: rest) i st ((rest.length + f) + 1) = _
    simp only [insertChunks, withFuel]
    rw [ih (i + 1) _ f]
    refine congrArg (fun s => ((Except.ok ()), s, f)) ?_
    simp [chunkRowsFrom, List.append_assoc]

/-! ### Bit lemmas for the ACCESS3 computation -/

theorem and_or_subset (res req b : Nat) (h1 : res &&& req = res)
    (h2 : b &&& req = b) : (res ||| b) &&& req = res ||| b := by
  apply Nat.eq_of_testBit_eq
  intro i
  have e1 : (res.testBit i && req.testBit i) = res.testBit i := by
    rw [← Nat.testBit_and, h1]
  have e2 : (b.testBit i && req.testBit i) = b.testBit i := by
    rw [← Nat.testBit_and, h2]
  rw [Nat.testBit_and, Nat.testBit_or]
  cases hr : res.testBit i <;> cases hb : b.testBit i <;> cases hq : req.testBit i <;>
    simp_all

theorem two_pow_and_of_ne_zero (req b k : Nat) (hb : b = 2 ^ k)
    (h : req &&& b ≠ 0) : b &&& req = b := by
  subst hb
  have hk : req.testBit k = true := by
    by_contra hk
    apply h
    have hf : req.testBit k = false := by simpa using hk
    rw [Nat.and_two_pow, hf]
    simp
  rw [Nat.two_pow_and, hk]
  simp

theorem access_step (req res bit k : Nat) (hbit : bit = 2 ^ k) (C : Prop)
    [Decidable C] (h : res &&& req = res) :
    (if req &&& bit ≠ 0 ∧ C then res ||| bit else res) &&& req
      = (if req &&& bit ≠ 0 ∧ C then res ||| bit else res) := by
  split
  · next hc => exact and_or_subset res req bit h (two_pow_and_of_ne_zero req bit k hbit hc.1)
  · exact h

/-- **C9** (confirmed): for every AUTH_UNIX credential, every file attribute
record and every requested bitmask, `compute_access` returns a subset of the
requested mask (`result AND requested = result`, equivalently
`result AND NOT requested = 0` on the 32-bit values). -/
theorem c9_compute_access_subset (auth : auth_unix) (attr : fattr3) (requested : Nat) :
    compute_access auth attr requested &&& requested
      = compute_access auth attr requested := by
  simp only [compute_access]
  refine access_step requested _ ACCESS3_EXECUTE 5 rfl _ ?_
  refine access_step requested _ ACCESS3_DELETE 4 rfl _ ?_
  refine access_step requested _ ACCESS3_EXTEND 3 rfl _ ?_
  refine access_step requested _ ACCESS3_MODIFY 2 rfl _ ?_
  refine access_step requested _ ACCESS3_LOOKUP 1 rfl _ ?_
  refine access_step requested _ ACCESS3_READ 0 rfl _ ?_
  exact Nat.zero_and requested

example :
    compute_access ⟨0, [], 1000, 1000, []⟩
      ⟨.NF3DIR, 0o700, 1, 1000, 1000, 0, 0, ⟨0, 0⟩, 0, 1, ⟨0, 0⟩, ⟨0, 0⟩, ⟨0, 0⟩⟩
      0x3f = 0x1f := by decide

example :
    compute_access ⟨0, [], 1000, 1000, []⟩
      ⟨.NF3REG, 0o700, 1, 1000, 1000, 0, 0, ⟨0, 0⟩, 0, 1, ⟨0, 0⟩, ⟨0, 0⟩, ⟨0, 0⟩⟩
      0x3f = 0x2d := by decide

/-! ### Error classification: the write phases only fail with `StoreError` -/

theorem insertChunks_error (ino : Int) :
    ∀ (cks : List (List Nat)) (i : Nat) (st : FsState) (fuel : Nat)
      (e : FsErr) (st₂ : FsState) (f₂ : Nat),
      insertChunks ino cks i st fuel = (.error e, st₂, f₂) → e = .StoreError := by
  intro cks
  induction cks with
  | nil =>
    intro i st fuel e st₂ f₂ h
    simp [insertChunks] at h
  | cons c rest ih =>
    intro i st fuel e st₂ f₂ h
    cases fuel with
    | zero =>
      simp only [insertChunks, withFuel, Prod.mk.injEq, Except.error.injEq] at h
      exact h.1.symm
    | succ f =>
      simp only [insertChunks, withFuel] at h
      exact ih (i + 1) _ f e st₂ f₂ h

theorem mkdirTail_error (now : Int) (name : String) (parent_ino ino : Int)
    (st : FsState) (fuel : Nat) (e : FsErr) (st₂ : FsState) (f₂ : Nat)
    (h : mkdirTail now name parent_ino ino st fuel = (.error e, st₂, f₂)) :
    e = .StoreError := by
  cases fuel with
  | zero =>
    simp only [mkdirTail, withFuel, Prod.mk.injEq, Except.error.injEq] at h
    exact h.1.symm
  | succ f =>
    cases f with
    | zero =>
      simp only [mkdirTail, withFuel, Prod.mk.injEq, Except.error.injEq] at h
      exact h.1.symm
    | succ f2 => simp [mkdirTail, withFuel] at h

theorem writeTail_error (now : Int) (cs : Nat) (b : List Nat) (ino : Int)
    (st : FsState) (fuel : Nat) (e : FsErr) (st₂ : FsState) (f₂ : Nat)
    (h : writeTail now cs b ino st fuel = (.error e, st₂, f₂)) :
    e = .StoreError := by
  unfold writeTail at h
  split at h
  · next e' st' f' heq =>
    simp only [Prod.mk.injEq, Except.error.injEq] at h
    rw [← h.1]
    split at heq
    · simp at heq
    · exact insertChunks_error ino _ 0 st fuel e' st' f' heq
  · next u st' f' heq =>
    cases f' with
    | zero =>
      simp only [withFuel, Prod.mk.injEq, Except.error.injEq] at h
      exact h.1.symm
    | succ f2 => simp [withFuel] at h

theorem writeExisting_error (now : Int) (cs : Nat) (b : List Nat) (ino : Int)
    (st : FsState) (fuel : Nat) (e : FsErr) (st₂ : FsState) (f₂ : Nat)
    (h : writeExisting now cs b ino st fuel = (.error e, st₂, f₂)) :
    e = .StoreError := by
  cases fuel with
  | zero =>
    simp only [writeExisting, withFuel, Prod.mk.injEq, Except.error.injEq] at h
    exact h.1.symm
  | succ f =>
    simp only [writeExisting, withFuel] at h
    exact writeTail_error now cs b ino _ f e st₂ f₂ h

theorem writeCreate_error (now : Int) (cs : Nat) (b : List Nat) (name : String)
    (parent_ino ino : Int) (st : FsState) (fuel : Nat) (e : FsErr)
    (st₂ : FsState) (f₂ : Nat)
    (h : writeCreate now cs b name parent_ino ino st fuel = (.error e, st₂, f₂)) :
    e = .StoreError := by
  cases fuel with
  | zero =>
    simp only [writeCreate, withFuel, Prod.mk.injEq, Except.error.injEq] at h
    exact h.1.symm
  | succ f =>
    cases f with
    | zero =>
      simp only [writeCreate, withFuel, Prod.mk.injEq, Except.error.injEq] at h
      exact h.1.symm
    | succ f2 =>
      simp only [writeCreate, withFuel] at h
      exact writeTail_error now cs b ino _ f2 e st₂ f₂ h

theorem symlinkTail_error (now : Int) (target name : String) (parent_ino ino : Int)
    (st : FsState) (fuel : Nat) (e : FsErr) (st₂ : FsState) (f₂ : Nat)
    (h : symlinkTail now target name parent_ino ino st fuel = (.error e, st₂, f₂)) :
    e = .StoreError := by
  cases fuel with
  | zero =>
    simp only [symlinkTail, withFuel, Prod.mk.injEq, Except.error.injEq] at h
    exact h.1.symm
  | succ f =>
    cases f with
    | zero =>
      simp only [symlinkTail, withFuel, Prod.mk.injEq, Except.error.injEq] at h
      exact h.1.symm
    | succ f2 =>
      cases f2 with
      | zero =>
        simp only [symlinkTail, withFuel, Prod.mk.injEq, Except.error.injEq] at h
        exact h.1.symm
      | succ f3 => simp [symlinkTail, withFuel] at h

theorem removeTail_error (ino parent_ino : Int) (name : String)
    (st : FsState) (fuel : Nat) (e : FsErr) (st₂ : FsState) (f₂ : Nat)
    (h : removeTail ino parent_ino name st fuel = (.error e, st₂, f₂)) :
    e = .StoreError := by
  cases fuel with
  | zero =>
    simp only [removeTail, withFuel, Prod.mk.injEq, Except.error.injEq] at h
    exact h.1.symm
  | succ f =>
    simp only [removeTail, withFuel] at h
    split at h
    · cases f with
      | zero =>
        simp only [withFuel, Prod.mk.injEq, Except.error.injEq] at h
        exact h.1.symm
      | succ f2 =>
        cases f2 with
        | zero =>
          simp only [withFuel, Prod.mk.injEq, Except.error.injEq] at h
          exact h.1.symm
        | succ f3 =>
          cases f3 with
          | zero =>
            simp only [withFuel, Prod.mk.injEq, Except.error.injEq] at h
            exact h.1.symm
          | succ f4 => simp [withFuel] at h
    · simp at h

theorem mkdir_nonstore_error (now : Int) (p : String) (st : FsState) (fuel : Nat)
    (e : FsErr) (st₂ : FsState) (f₂ : Nat)
    (h : mkdir now p st fuel = (.error e, st₂, f₂)) (hne : e ≠ .StoreError) :
    st₂ = st := by
  unfold mkdir at h
  split at h
  · simp only [Prod.mk.injEq] at h; exact h.2.1.symm
  · split at h
    · simp only [Prod.mk.injEq] at h; exact h.2.1.symm
    · split at h
      · simp only [Prod.mk.injEq] at h; exact h.2.1.symm
      · exact absurd (mkdirTail_error _ _ _ _ _ _ _ _ _ h) hne

theorem write_file_nonstore_error (now : Int) (cs : Nat) (p : String) (b : List Nat)
    (st : FsState) (fuel : Nat) (e : FsErr) (st₂ : FsState) (f₂ : Nat)
    (h : write_file now cs p b st fuel = (.error e, st₂, f₂)) (hne : e ≠ .StoreError) :
    st₂ = st := by
  unfold write_file at h
  split at h
  · simp only [Prod.mk.injEq] at h; exact h.2.1.symm
  · split at h
    · simp only [Prod.mk.injEq] at h; exact h.2.1.symm
    · split at h
      · exact absurd (writeExisting_error _ _ _ _ _ _ _ _ _ h) hne
      · exact absurd (writeCreate_error _ _ _ _ _ _ _ _ _ _ _ h) hne

theorem symlink_nonstore_error (now : Int) (target linkpath : String) (st : FsState)
    (fuel : Nat) (e : FsErr) (st₂ : FsState) (f₂ : Nat)
    (h : symlink now target linkpath st fuel = (.error e, st₂, f₂))
    (hne : e ≠ .StoreError) : st₂ = st := by
  unfold symlink at h
  split at h
  · simp only [Prod.mk.injEq] at h; exact h.2.1.symm
  · split at h
    · simp only [Prod.mk.injEq] at h; exact h.2.1.symm
    · split at h
      · simp only [Prod.mk.injEq] at h; exact h.2.1.symm
      · exact absurd (symlinkTail_error _ _ _ _ _ _ _ _ _ _ h) hne

theorem remove_nonstore_error (p : String) (st : FsState) (fuel : Nat)
    (e : FsErr) (st₂ : FsState) (f₂ : Nat)
    (h : remove p st fuel = (.error e, st₂, f₂)) (hne : e ≠ .StoreError) :
    st₂ = st := by
  unfold remove at h
  split at h
  · simp only [Prod.mk.injEq] at h; exact h.2.1.symm
  · split at h
    · simp only [Prod.mk.injEq] at h; exact h.2.1.symm
    · split at h
      · simp only [Prod.mk.injEq] at h; exact h.2.1.symm
      · split at h
        · simp only [Prod.mk.injEq] at h; exact h.2.1.symm
        · split at h
          · simp only [Prod.mk.injEq] at h; exact h.2.1.symm
          · exact absurd (removeTail_error _ _ _ _ _ _ _ _ h) hne

/-- **C2** (amended): the operations open no store transaction — each SQL
statement commits on its own.  Errors raised by the validation phase
(`IsRoot` / `NotFound` / `Exists` / `NotEmpty` checks) leave the store
unchanged, but a store failure part-way through the write sequence leaves
the earlier statements' effects committed, so partial states (an inode row
without its dentry) are observable. -/
theorem c2_nonstore_errors_preserve_state :
    (∀ (now : Int) (p : String) (st : FsState) (fuel : Nat) (e : FsErr)
      (st₂ : FsState) (f₂ : Nat),
      mkdir now p st fuel = (.error e, st₂, f₂) → e ≠ .StoreError → st₂ = st) ∧
    (∀ (now : Int) (cs : Nat) (p : String) (b : List Nat) (st : FsState)
      (fuel : Nat) (e : FsErr) (st₂ : FsState) (f₂ : Nat),
      write_file now cs p b st fuel = (.error e, st₂, f₂) → e ≠ .StoreError → st₂ = st) ∧
    (∀ (now : Int) (target linkpath : String) (st : FsState) (fuel : Nat)
      (e : FsErr) (st₂ : FsState) (f₂ : Nat),
      symlink now target linkpath st fuel = (.error e, st₂, f₂) →
        e ≠ .StoreError → st₂ = st) ∧
    (∀ (p : String) (st : FsState) (fuel : Nat) (e : FsErr) (st₂ : FsState) (f₂ : Nat),
      remove p st fuel = (.error e, st₂, f₂) → e ≠ .StoreError → st₂ = st) :=
  ⟨fun now p st fuel e st₂ f₂ h hne => mkdir_nonstore_error now p st fuel e st₂ f₂ h hne,
   fun now cs p b st fuel e st₂ f₂ h hne =>
     write_file_nonstore_error now cs p b st fuel e st₂ f₂ h hne,
   fun now t lp st fuel e st₂ f₂ h hne =>
     symlink_nonstore_error now t lp st fuel e st₂ f₂ h hne,
   fun p st fuel e st₂ f₂ h hne => remove_nonstore_error p st fuel e st₂ f₂ h hne⟩

/-- Witness for C2: each operation, failing its validation phase on concrete
input, leaves the fresh state untouched. -/
theorem c2_nonstore_errors_preserve_state_witness :
    (mkdir 0 "/" (freshState 0) 5).2.1 = freshState 0 ∧
    (write_file 0 4096 "/" [1] (freshState 0) 5).2.1 = freshState 0 ∧
    (symlink 0 "/t" "/" (freshState 0) 5).2.1 = freshState 0 ∧
    (remove "/x" (freshState 0) 5).2.1 = freshState 0 :=
  ⟨c2_nonstore_errors_preserve_state.1 0 "/" (freshState 0) 5 .CannotCreateRootDir _ 5
      (by decide) (by decide),
   c2_nonstore_errors_preserve_state.2.1 0 4096 "/" [1] (freshState 0) 5
      .CannotWriteToRoot _ 5 (by decide) (by decide),
   c2_nonstore_errors_preserve_state.2.2.1 0 "/t" "/" (freshState 0) 5
      .CannotSymlinkAtRoot _ 5 (by decide) (by decide),
   c2_nonstore_errors_preserve_state.2.2.2 "/x" (freshState 0) 5
      .PathNotFound _ 5 (by decide) (by decide)⟩

/-- **C3** (amended): normalization is idempotent on every input that begins
with `'/'`; for relative inputs the first pass only prepends `'/'` without
folding `.` / `..`, so idempotence can fail there. -/
theorem c3_normalize_idempotent_absolute (p : String) (h : p.data.head? = some '/') :
    normalize_path (normalize_path p) = normalize_path p := by
  have h2 : normalizeChars (normalizeChars p.data) = normalizeChars p.data :=
    normalizeChars_canonical_fix _ (normalizeChars_abs_canonical _ h)
  show (⟨normalizeChars (normalizeChars p.data)⟩ : String) = ⟨normalizeChars p.data⟩
  rw [h2]

/-- Witness for C3: the absolute path `"/a/./b/../c"` satisfies the
hypothesis, and normalizing its normalization changes nothing. -/
theorem c3_normalize_idempotent_absolute_witness :
    ("/a/./b/../c" : String).data.head? = some '/' ∧
    normalize_path (normalize_path "/a/./b/../c") = normalize_path "/a/./b/../c" :=
  ⟨by decide, c3_normalize_idempotent_absolute "/a/./b/../c" (by decide)⟩

/-- **C7** (confirmed): `stat` follows symlink chains for at most
`max_symlink_depth = 40` hops; after `symlink("/a", "/b")` and
`symlink("/b", "/a")` — both succeeding — `stat("/a")` fails with
`TooManySymlinks` instead of looping forever. -/
theorem c7_symlink_loop_too_many_symlinks :
    max_symlink_depth = 40 ∧
    linkToA.1 = .ok () ∧
    (symlink 2 "/b" "/a" linkToA.2.1 10).1 = .ok () ∧
    stat loopState "/a" = .error .TooManySymlinks := by decide

/-- **C10** (confirmed): the empty string is accepted as a path and denotes
the root: `normalize_path("") = "/"`, and on a freshly initialized
filesystem `lstat("")` returns the root directory's attributes with ino 1. -/
theorem c10_empty_path_is_root :
    normalize_path "" = "/" ∧
    ∀ now : Int, ∃ s, lstat (freshState now) "" = some s ∧ s.ino = 1 ∧
      s.mode = DEFAULT_DIR_MODE ∧ s.uid = 0 ∧ s.gid = 0 ∧ s.size = 0 ∧
      s.atime = now ∧ s.mtime = now ∧ s.ctime = now :=
  ⟨by decide, fun _ => ⟨_, rfl, rfl, rfl, rfl, rfl, rfl, rfl, rfl, rfl⟩⟩

/-- **C4** (amended): `read_file` performs no file-type check: on a path
that resolves to an existing inode that is a directory, it does not fail
with a `NotFile` error but returns byte content — `some []` whenever the
inode has no `fs_data` rows (always the case for a directory `mkdir`
created). -/
theorem c4_read_nonfile_returns_empty (st : FsState) (p : String) (ino : Int)
    (i : Inode) (hres : resolve_path st p = some ino)
    (hino : findInode st ino = some i) (hdir : i.mode &&& S_IFMT = S_IFDIR)
    (hrows : rowsFor st ino = []) :
    read_file st p = some [] := by
  unfold read_file
  rw [hres]
  show some ((sortByIdx (rowsFor st ino)).map (fun r => r.data)).flatten = some []
  rw [hrows]
  rfl

/-- Witness for C4: the directory created by `mkdir("/d")` on a fresh
filesystem reads back as `some []`. -/
theorem c4_read_nonfile_returns_empty_witness :
    read_file mkdirD.2.1 "/d" = some [] :=
  c4_read_nonfile_returns_empty mkdirD.2.1 "/d" 2
    ⟨2, DEFAULT_DIR_MODE, 0, 0, 0, 1, 1, 1⟩
    (by decide) (by decide) (by decide) (by decide)

/-- **C6** (amended): `mkdir` never checks the parent's file type: whenever
the parent path resolves to an existing inode — here a regular file — and
the leaf is absent, `mkdir` succeeds, appending a directory inode row and a
dentry row whose parent is the file's inode. -/
theorem c6_mkdir_ignores_parent_type (now : Int) (p : String) (st : FsState)
    (fuel : Nat) (pi : Int) (i : Inode)
    (hne : split_path (normalize_path p) ≠ [])
    (hpar : resolve_path st (parent_path_of (split_path (normalize_path p))) = some pi)
    (hleaf : resolve_path st (normalize_path p) = none)
    (hino : findInode st pi = some i) (hfile : i.mode &&& S_IFMT = S_IFREG)
    (hfuel : 2 ≤ fuel) :
    ∃ f₂, mkdir now p st fuel =
      (.ok (), { st with
        inodes := st.inodes ++
          [⟨st.nextIno, DEFAULT_DIR_MODE, 0, 0, 0, now, now, now⟩]
        dentries := st.dentries ++
          [⟨(split_path (normalize_path p)).getLastD "", pi, st.nextIno⟩]
        nextIno := st.nextIno + 1 }, f₂) := by
  obtain ⟨f, rfl⟩ : ∃ f, fuel = f + 2 := ⟨fuel - 2, by omega⟩
  refine ⟨f, ?_⟩
  have hne' : (split_path (normalize_path p)).isEmpty = false := by
    cases hsp : split_path (normalize_path p) with
    | nil => exact absurd hsp hne
    | cons a as => rfl
  simp only [mkdir, hne', Bool.false_eq_true, if_false, hpar, hleaf, Option.isSome_none]
  simp only [mkdirTail, withFuel]

/-- Witness for C6: the concrete `mkdir("/f/d")` under the regular file
`/f`. -/
theorem c6_mkdir_ignores_parent_type_witness :
    ∃ f₂, mkdir 2 "/f/d" fileF.2.1 10 =
      (.ok (), { fileF.2.1 with
        inodes := fileF.2.1.inodes ++ [⟨3, DEFAULT_DIR_MODE, 0, 0, 0, 2, 2, 2⟩]
        dentries := fileF.2.1.dentries ++ [⟨"d", 2, 3⟩]
        nextIno := 4 }, f₂) :=
  c6_mkdir_ignores_parent_type 2 "/f/d" fileF.2.1 10 2
    ⟨2, DEFAULT_FILE_MODE, 0, 0, 0, 1, 1, 1⟩
    (by decide) (by decide) (by decide) (by decide) (by decide) (by decide)

/-! ### Orphan collection (C8) -/

theorem filter_not_filter {α : Type} (l : List α) (p : α → Prop) [DecidablePred p] :
    (l.filter (fun x => ¬ p x)).filter (fun x => p x) = [] := by
  induction l with
  | nil => rfl
  | cons a rest ih =>
    by_cases h : p a <;> simp [List.filter_cons, h, ih]

theorem removeTail_ok (ino parent_ino : Int) (name : String) (st : FsState)
    (fuel : Nat) (st₂ : FsState) (f₂ : Nat)
    (h : removeTail ino parent_ino name st fuel = (.ok (), st₂, f₂))
    (hzero : get_link_count
      { st with
        dentries := st.dentries.filter (fun d =>
          ¬ (d.parent_ino = parent_ino ∧ d.name = name)) } ino = 0) :
    st₂ = { st with
      dentries := st.dentries.filter (fun d =>
        ¬ (d.parent_ino = parent_ino ∧ d.name = name))
      data := st.data.filter (fun r => ¬ r.ino = ino)
      symlinks := st.symlinks.filter (fun s => ¬ s.ino = ino)
      inodes := st.inodes.filter (fun i => ¬ i.ino = ino) } := by
  cases fuel with
  | zero => simp [removeTail, withFuel] at h
  | succ f =>
    simp only [removeTail, withFuel] at h
    rw [if_pos hzero] at h
    cases f with
    | zero => simp [withFuel] at h
    | succ f2 =>
      cases f2 with
      | zero => simp [withFuel] at h
      | succ f3 =>
        cases f3 with
        | zero => simp [withFuel] at h
        | succ f4 =>
          simp only [withFuel, Prod.mk.injEq, true_and] at h
          exact h.1.symm

/-- **C8** (confirmed): when the inode a path resolves to has exactly one
dentry (derived link count 1), a successful `remove` deletes that dentry
and, the surviving link count being zero, also deletes every `fs_data` row,
any `fs_symlink` row and the `fs_inode` row of that inode — no orphan rows
remain. -/
theorem c8_remove_last_link_no_orphans (p : String) (st : FsState) (fuel : Nat)
    (ino : Int) (st₂ : FsState) (f₂ : Nat)
    (hres : resolve_path st (normalize_path p) = some ino)
    (hlink : get_link_count st ino = 1)
    (hok : remove p st fuel = (.ok (), st₂, f₂)) :
    st₂.dentries.filter (fun d => d.ino = ino) = [] ∧
    st₂.data.filter (fun r => r.ino = ino) = [] ∧
    st₂.symlinks.filter (fun s => s.ino = ino) = [] ∧
    st₂.inodes.filter (fun i => i.ino = ino) = [] := by
  unfold remove at hok
  split at hok
  · simp at hok
  · next hcomps =>
    split at hok
    · simp at hok
    · next ino' heq =>
      have hii : ino' = ino := by
        rw [hres] at heq
        exact (Option.some.inj heq).symm
      rw [hii] at hok
      split at hok
      · simp at hok
      · split at hok
        · simp at hok
        · split at hok
          · simp at hok
          · next parent_ino hp =>
            -- identify the single dentry that the resolution walked through
            have hcomps_ne : split_path (normalize_path p) ≠ [] := by
              intro he
              rw [he] at hcomps
              exact hcomps rfl
            have hclean := split_path_normalize_clean p
            have hsp : split_path (parent_path_of (split_path (normalize_path p)))
                = (split_path (normalize_path p)).dropLast :=
              split_path_parent _ hcomps_ne hclean
            have hp' : resolveComps st ROOT_INO
                (split_path (normalize_path p)).dropLast = some parent_ino := by
              have hpp : resolve_path st
                  (parent_path_of (split_path (normalize_path p))) = some parent_ino := hp
              unfold resolve_path at hpp
              rwa [hsp] at hpp
            have hwalk : resolveComps st ROOT_INO (split_path (normalize_path p))
                = some ino := hres
            rw [resolveComps_concat st (split_path (normalize_path p)) hcomps_ne
              ROOT_INO, hp'] at hwalk
            have hwalk2 : (match findDentry st parent_ino
                ((split_path (normalize_path p)).getLastD "") with
              | some d => some d.ino
              | none => none) = some ino := hwalk
            cases hfd : findDentry st parent_ino
                ((split_path (normalize_path p)).getLastD "") with
            | none => rw [hfd] at hwalk2; cases hwalk2
            | some d =>
              rw [hfd] at hwalk2
              have hdino : d.ino = ino := Option.some.inj hwalk2
              have hdmem : d ∈ st.dentries := List.mem_of_find?_eq_some hfd
              have hfd' : st.dentries.find? (fun e => e.parent_ino = parent_ino ∧
                  e.name = (split_path (normalize_path p)).getLastD "") = some d := hfd
              have hdprop : d.parent_ino = parent_ino ∧
                  d.name = (split_path (normalize_path p)).getLastD "" := by
                have hpd := List.find?_some hfd'
                simpa using hpd
              obtain ⟨a, ha⟩ := List.length_eq_one.mp hlink
              have hda : d = a := by
                have hmem : d ∈ st.dentries.filter (fun e => e.ino = ino) :=
                  List.mem_filter.mpr ⟨hdmem, by simpa using hdino⟩
                rw [ha] at hmem
                simpa using hmem
              subst hda
              have hnone : ((st.dentries.filter
                  (fun e => ¬ (e.parent_ino = parent_ino ∧
                    e.name = (split_path (normalize_path p)).getLastD ""))).filter
                  (fun e => e.ino = ino)) = [] := by
                rw [List.filter_eq_nil_iff]
                intro x hx
                obtain ⟨hx1, hx2⟩ := List.mem_filter.mp hx
                intro hxi
                have hxi' : x.ino = ino := of_decide_eq_true hxi
                have hxmem : x ∈ st.dentries.filter (fun e => e.ino = ino) :=
                  List.mem_filter.mpr ⟨hx1, by simpa using hxi'⟩
                rw [ha] at hxmem
                have hxd : x = d := by simpa using hxmem
                subst hxd
                exact (of_decide_eq_true hx2) hdprop
              have hzero : get_link_count
                  { st with
                    dentries := st.dentries.filter (fun e =>
                      ¬ (e.parent_ino = parent_ino ∧
                        e.name = (split_path (normalize_path p)).getLastD "")) } ino = 0 := by
                show ((st.dentries.filter
                  (fun e => ¬ (e.parent_ino = parent_ino ∧
                    e.name = (split_path (normalize_path p)).getLastD ""))).filter
                  (fun e => e.ino = ino)).length = 0
                rw [hnone]
                rfl
              have hst2 := removeTail_ok ino parent_ino
                ((split_path (normalize_path p)).getLastD "") st fuel st₂ f₂ hok hzero
              rw [hst2]
              exact ⟨hnone,
                filter_not_filter st.data (fun r => r.ino = ino),
                filter_not_filter st.symlinks (fun s => s.ino = ino),
                filter_not_filter st.inodes (fun i => i.ino = ino)⟩

/-- Witness for C8: removing the single-linked file `/f` (bytes `[1, 2]`)
from a fresh filesystem leaves no row for its inode in any table. -/
theorem c8_remove_last_link_no_orphans_witness :
    (remove "/f" fileF12.2.1 10).2.1.dentries.filter (fun d => d.ino = 2) = [] ∧
    (remove "/f" fileF12.2.1 10).2.1.data.filter (fun r => r.ino = 2) = [] ∧
    (remove "/f" fileF12.2.1 10).2.1.symlinks.filter (fun s => s.ino = 2) = [] ∧
    (remove "/f" fileF12.2.1 10).2.1.inodes.filter (fun i => i.ino = 2) = [] :=
  c8_remove_last_link_no_orphans "/f" fileF12.2.1 10 2
    (remove "/f" fileF12.2.1 10).2.1 (remove "/f" fileF12.2.1 10).2.2
    (by decide) (by decide) (by decide)

/-! ### Success characterization of the `write_file` phases -/

theorem writeTail_ok (now : Int) (cs : Nat) (b : List Nat) (ino : Int)
    (st : FsState) (fuel : Nat) (st₂ : FsState) (f₂ : Nat)
    (h : writeTail now cs b ino st fuel = (.ok (), st₂, f₂)) :
    st₂ = { st with
      data := st.data ++ chunkRowsFrom ino 0 (chunksOf cs b)
      inodes := st.inodes.map (fun e =>
        if e.ino = ino then { e with size := (b.length : Int), mtime := now }
        else e) } := by
  unfold writeTail at h
  split at h
  · simp at h
  · next u st' f' heq =>
    have hst' : st' = { st with data := st.data ++ chunkRowsFrom ino 0 (chunksOf cs b) } := by
      split at heq
      · next hb =>
        have hbnil : b = [] := by
          cases b with
          | nil => rfl
          | cons x xs => simp at hb
        subst hbnil
        simp only [Prod.mk.injEq, true_and] at heq
        rw [← heq.1]
        show st = { st with data := st.data ++ ([] : List DataRow) }
        rw [List.append_nil]
      · exact insertChunks_ok ino (chunksOf cs b) 0 st fuel st' f' heq
    cases f' with
    | zero => simp [withFuel] at h
    | succ f3 =>
      simp only [withFuel, Prod.mk.injEq, true_and] at h
      rw [← h.1, hst']

theorem writeExisting_ok (now : Int) (cs : Nat) (b : List Nat) (ino : Int)
    (st : FsState) (fuel : Nat) (st₂ : FsState) (f₂ : Nat)
    (h : writeExisting now cs b ino st fuel = (.ok (), st₂, f₂)) :
    st₂ = { st with
      data := st.data.filter (fun r => ¬ r.ino = ino) ++
        chunkRowsFrom ino 0 (chunksOf cs b)
      inodes := st.inodes.map (fun e =>
        if e.ino = ino then { e with size := (b.length : Int), mtime := now }
        else e) } := by
  cases fuel with
  | zero => simp [writeExisting, withFuel] at h
  | succ f =>
    simp only [writeExisting, withFuel] at h
    exact writeTail_ok now cs b ino _ f st₂ f₂ h

theorem writeCreate_ok (now : Int) (cs : Nat) (b : List Nat) (name : String)
    (parent_ino ino : Int) (st : FsState) (fuel : Nat) (st₂ : FsState) (f₂ : Nat)
    (h : writeCreate now cs b name parent_ino ino st fuel = (.ok (), st₂, f₂)) :
    st₂ = { st with
      inodes := (st.inodes ++
        [({ ino := ino, mode := DEFAULT_FILE_MODE, uid := 0, gid := 0
            size := (b.length : Int), atime := now, mtime := now
            ctime := now } : Inode)]).map (fun e =>
          if e.ino = ino then { e with size := (b.length : Int), mtime := now }
          else e)
      dentries := st.dentries ++ [⟨name, parent_ino, ino⟩]
      data := st.data ++ chunkRowsFrom ino 0 (chunksOf cs b)
      nextIno := st.nextIno + 1 } := by
  cases fuel with
  | zero => simp [writeCreate, withFuel] at h
  | succ f =>
    cases f with
    | zero => simp [writeCreate, withFuel] at h
    | succ f2 =>
      simp only [writeCreate, withFuel] at h
      exact writeTail_ok now cs b ino _ f2 st₂ f₂ h

theorem split_path_abs (p : String) (h : p.data.head? = some '/') :
    split_path p = split_path (normalize_path p) := by
  unfold split_path
  have h1 : (normalize_path p).data = normalizeChars p.data := rfl
  rw [h1, normalizeChars_canonical_fix _ (normalizeChars_abs_canonical _ h)]

/-- Reading back the rows the chunk loop wrote reproduces the bytes. -/
theorem read_rows_roundtrip (cs : Nat) (hcs : 0 < cs) (b : List Nat) (ino : Int) :
    ((sortByIdx (chunkRowsFrom ino 0 (chunksOf cs b))).map (fun r => r.data)).flatten
      = b := by
  rw [sortByIdx_sorted _ (chunkRowsFrom_pairwise ino 0 _), chunkRowsFrom_map_data,
    chunksOf_flatten cs hcs]

/-- **C5** (amended): `write_file` does not fail with an `IsDirectory` error
when the target resolves to an existing directory inode: with enough fuel it
succeeds, replaces that inode's `fs_data` rows with the new chunk rows, and
sets its size to `|b|` — the mode (still a directory) is untouched and no
dentry changes. -/
theorem c5_write_to_directory_succeeds (now : Int) (cs : Nat) (p : String)
    (b : List Nat) (st : FsState) (ino : Int) (i : Inode)
    (hne : split_path (normalize_path p) ≠ [])
    (hres : resolve_path st (normalize_path p) = some ino)
    (hino : findInode st ino = some i)
    (hdir : i.mode &&& S_IFMT = S_IFDIR) :
    ∃ st₂ f₂,
      write_file now cs p b st ((chunksOf cs b).length + 2) = (.ok (), st₂, f₂) ∧
      findInode st₂ ino = some { i with size := (b.length : Int), mtime := now } ∧
      st₂.data.filter (fun r => r.ino = ino) = chunkRowsFrom ino 0 (chunksOf cs b) ∧
      st₂.dentries = st.dentries := by
  have hclean := split_path_normalize_clean p
  -- the parent prefix of a successful walk also resolves
  obtain ⟨j, hpre⟩ : ∃ j, resolveComps st ROOT_INO
      (split_path (normalize_path p)).dropLast = some j := by
    have hwalk : resolveComps st ROOT_INO (split_path (normalize_path p))
      = some ino := hres
    rw [resolveComps_concat st _ hne ROOT_INO] at hwalk
    cases hpre : resolveComps st ROOT_INO (split_path (normalize_path p)).dropLast with
    | some j => exact ⟨j, rfl⟩
    | none => rw [hpre] at hwalk; cases hwalk
  have hpar : resolve_path st (parent_path_of (split_path (normalize_path p)))
      = some j := by
    unfold resolve_path
    rw [split_path_parent _ hne hclean]
    exact hpre
  have hne' : (split_path (normalize_path p)).isEmpty = false := by
    cases hsp : split_path (normalize_path p) with
    | nil => exact absurd hsp hne
    | cons a as => rfl
  have hiino : i.ino = ino := by
    have := List.find?_some hino
    simpa using this
  refine ⟨{ st with
      data := st.data.filter (fun r => ¬ r.ino = ino) ++
        chunkRowsFrom ino 0 (chunksOf cs b)
      inodes := st.inodes.map (fun e =>
        if e.ino = ino then { e with size := (b.length : Int), mtime := now }
        else e) }, 0, ?_, ?_, ?_, rfl⟩
  · simp only [write_file, hne', Bool.false_eq_true, if_false, hpar, hres]
    by_cases hb : b = []
    · subst hb
      show writeExisting now cs [] ino st (0 + 2) = _
      have hnil : chunkRowsFrom ino 0 (chunksOf cs ([] : List Nat)) = [] := rfl
      rw [hnil, List.append_nil]
      rfl
    · have hbne : b.isEmpty = false := by
        cases b with
        | nil => exact absurd rfl hb
        | cons x xs => rfl
      show writeExisting now cs b ino st ((chunksOf cs b).length + 2) = _
      have harith : (chunksOf cs b).length + 2 = ((chunksOf cs b).length + 1) + 1 := rfl
      rw [harith]
      simp only [writeExisting, withFuel, writeTail, hbne, Bool.false_eq_true, if_false]
      rw [insertChunks_run ino (chunksOf cs b) 0 _ 1]
  · show ((st.inodes.map (fun e =>
        if e.ino = ino then { e with size := (b.length : Int), mtime := now }
        else e)).find? (fun e => e.ino = ino)) = _
    rw [find?_map_update st.inodes ino _ (fun e => by by_cases h : e.ino = ino <;> simp [h])]
    have hino' : st.inodes.find? (fun e => e.ino = ino) = some i := hino
    rw [hino', Option.map_some', if_pos hiino]
  · show ((st.data.filter (fun r => ¬ r.ino = ino)) ++
        chunkRowsFrom ino 0 (chunksOf cs b)).filter (fun r => r.ino = ino) = _
    rw [List.filter_append, filter_not_filter st.data (fun r => r.ino = ino),
      chunkRowsFrom_filter_self, List.nil_append]

/-- Witness for C5: writing `[42]` onto the directory `/d` created on a
fresh filesystem. -/
theorem c5_write_to_directory_succeeds_witness :
    ∃ st₂ f₂,
      write_file 2 4096 "/d" [42] mkdirD.2.1 ((chunksOf 4096 [42]).length + 2)
        = (.ok (), st₂, f₂) ∧
      findInode st₂ 2 = some { (⟨2, DEFAULT_DIR_MODE, 0, 0, 0, 1, 1, 1⟩ : Inode) with
        size := (([42] : List Nat).length : Int), mtime := 2 } ∧
      st₂.data.filter (fun r => r.ino = 2) = chunkRowsFrom 2 0 (chunksOf 4096 [42]) ∧
      st₂.dentries = mkdirD.2.1.dentries :=
  c5_write_to_directory_succeeds 2 4096 "/d" [42] mkdirD.2.1 2
    ⟨2, DEFAULT_DIR_MODE, 0, 0, 0, 1, 1, 1⟩
    (by decide) (by decide) (by decide) (by decide)

/-! ### Read-back lemmas for C1 -/

theorem read_file_of_rows (st : FsState) (p : String) (ino : Int) (cs : Nat)
    (hcs : 0 < cs) (b : List Nat)
    (hres : resolve_path st p = some ino)
    (hrows : rowsFor st ino = chunkRowsFrom ino 0 (chunksOf cs b)) :
    read_file st p = some b := by
  unfold read_file
  rw [hres]
  show some ((sortByIdx (rowsFor st ino)).map (fun r => r.data)).flatten = some b
  rw [hrows, read_rows_roundtrip cs hcs b ino]

theorem lstat_size (st : FsState) (p : String) (ino : Int) (i : Inode)
    (hres : resolve_path st (normalize_path p) = some ino)
    (hino : findInode st ino = some i) :
    lstat st p = some (buildStats st i) := by
  unfold lstat
  rw [hres]
  show (match findInode st ino with
    | none => none
    | some j => some (buildStats st j)) = _
  rw [hino]

theorem rowsFor_after_rewrite (old rows : List DataRow) (ino : Int) (st : FsState)
    (hdata : st.data = old.filter (fun r => ¬ r.ino = ino) ++ rows)
    (hrows : rows.filter (fun r => r.ino = ino) = rows) :
    rowsFor st ino = rows := by
  unfold rowsFor
  rw [hdata, List.filter_append, filter_not_filter old (fun r => r.ino = ino),
    hrows, List.nil_append]

theorem rowsFor_after_append (old rows : List DataRow) (ino : Int) (st : FsState)
    (hdata : st.data = old ++ rows)
    (hold : ∀ r ∈ old, ¬ r.ino = ino)
    (hrows : rows.filter (fun r => r.ino = ino) = rows) :
    rowsFor st ino = rows := by
  unfold rowsFor
  rw [hdata, List.filter_append,
    List.filter_eq_nil_iff.mpr (by intro a ha; simpa using hold a ha),
    hrows, List.nil_append]

theorem findInode_map_update (st₂ st : FsState) (ino : Int) (i : Inode)
    (b : List Nat) (now : Int)
    (hinodes : st₂.inodes = st.inodes.map (fun e =>
      if e.ino = ino then { e with size := (b.length : Int), mtime := now } else e))
    (hfind : findInode st ino = some i) :
    findInode st₂ ino = some { i with size := (b.length : Int), mtime := now } := by
  unfold findInode
  rw [hinodes,
    find?_map_update st.inodes ino _ (fun e => by by_cases h : e.ino = ino <;> simp [h])]
  have hfind' : st.inodes.find? (fun e => e.ino = ino) = some i := hfind
  have hiino : i.ino = ino := by simpa using List.find?_some hfind'
  rw [hfind', Option.map_some', if_pos hiino]

theorem findInode_create (st₂ st : FsState) (ino : Int) (new : Inode)
    (b : List Nat) (now : Int)
    (hinodes : st₂.inodes = (st.inodes ++ [new]).map (fun e =>
      if e.ino = ino then { e with size := (b.length : Int), mtime := now } else e))
    (hnew : new.ino = ino)
    (hnone : ∀ e ∈ st.inodes, ¬ e.ino = ino) :
    findInode st₂ ino = some { new with size := (b.length : Int), mtime := now } := by
  unfold findInode
  rw [hinodes,
    find?_map_update _ ino _ (fun e => by by_cases h : e.ino = ino <;> simp [h]),
    List.find?_append,
    List.find?_eq_none.mpr (by intro x hx; simpa using hnone x hx)]
  have h2 : ([new].find? (fun e => e.ino = ino)) = some new :=
    List.find?_cons_of_pos _ (by simpa using hnew)
  rw [h2]
  simp [hnew]

theorem resolve_create (st₂ st : FsState) (comps : List String) (parent_ino ino : Int)
    (d' : Dentry)
    (hd : st₂.dentries = st.dentries ++ [d'])
    (hdparent : d'.parent_ino = parent_ino) (hdname : d'.name = comps.getLastD "")
    (hdino : d'.ino = ino)
    (hne : comps ≠ [])
    (hpre : resolveComps st ROOT_INO comps.dropLast = some parent_ino)
    (hleafnone : findDentry st parent_ino (comps.getLastD "") = none) :
    resolveComps st₂ ROOT_INO comps = some ino := by
  have hcongr := resolveComps_congr { st with dentries := st.dentries ++ [d'] } st₂
    (by rw [hd])
  rw [resolveComps_concat st₂ comps hne ROOT_INO, hcongr,
    resolveComps_append_dentry st d' comps.dropLast ROOT_INO parent_ino hpre]
  have hfd : findDentry st₂ parent_ino (comps.getLastD "") = some d' := by
    show st₂.dentries.find?
      (fun e => e.parent_ino = parent_ino ∧ e.name = comps.getLastD "") = some d'
    rw [hd, List.find?_append]
    have h1 : st.dentries.find?
        (fun e => e.parent_ino = parent_ino ∧ e.name = comps.getLastD "") = none :=
      hleafnone
    rw [h1]
    have h2 : ([d'].find?
        (fun e => e.parent_ino = parent_ino ∧ e.name = comps.getLastD "")) = some d' :=
      List.find?_cons_of_pos _ (by simp [hdparent, hdname])
    rw [h2]
    rfl
  show (match findDentry st₂ parent_ino (comps.getLastD "") with
    | some d => some d.ino
    | none => none) = some ino
  rw [hfd]
  show some d'.ino = some ino
  rw [hdino]

/-- **C1** (amended): for every path `p` that begins with `'/'`: if
`write_file(p, b)` succeeds then `read_file(p)` returns `Some b`
byte-for-byte and `lstat(p)` reports size `|b|`.  (For a relative `p` the
round trip can fail because only `write_file` folds `.` / `..`; and when
`p` names a symlink, `write_file` writes to the symlink's own inode while
`stat` follows the link, so `stat(p)` — unlike `lstat(p)` — need not report
size `|b|`.) -/
theorem c1_roundtrip_absolute (now : Int) (cs : Nat) (p : String) (b : List Nat)
    (st : FsState) (fuel : Nat) (st₂ : FsState) (f₂ : Nat)
    (hcs : 0 < cs) (hwf : WF st) (habs : p.data.head? = some '/')
    (hok : write_file now cs p b st fuel = (.ok (), st₂, f₂)) :
    read_file st₂ p = some b ∧
    ∃ s, lstat st₂ p = some s ∧ s.size = (b.length : Int) := by
  obtain ⟨hwf1, hwf2, hwf3, _⟩ := hwf
  have hclean := split_path_normalize_clean p
  unfold write_file at hok
  split at hok
  · simp at hok
  · next hcomps =>
    have hcomps_ne : split_path (normalize_path p) ≠ [] := by
      intro he; rw [he] at hcomps; exact hcomps rfl
    split at hok
    · simp at hok
    · next parent_ino hpar =>
      split at hok
      · -- overwrite branch: the path already resolved to `ino`
        next ino heq =>
        have hst2 := writeExisting_ok now cs b ino st fuel st₂ f₂ hok
        have hdent : st₂.dentries = st.dentries := by rw [hst2]
        have hresolveN : resolve_path st₂ (normalize_path p) = some ino := by
          unfold resolve_path
          rw [resolveComps_congr st st₂ hdent]
          exact heq
        have hresolveP : resolve_path st₂ p = some ino := by
          unfold resolve_path
          rw [split_path_abs p habs, resolveComps_congr st st₂ hdent]
          exact heq
        have hrows : rowsFor st₂ ino = chunkRowsFrom ino 0 (chunksOf cs b) :=
          rowsFor_after_rewrite st.data _ ino st₂ (by rw [hst2])
            (chunkRowsFrom_filter_self ino 0 _)
        -- the dentry the walk ended on references an existing inode row (WF)
        obtain ⟨d, hdmem, hdino⟩ :=
          resolveComps_mem_dentry st (split_path (normalize_path p)) ROOT_INO ino
            hcomps_ne heq
        obtain ⟨iEx, hiExMem, hiExEq⟩ := (hwf2 d hdmem).2
        obtain ⟨iRow, hfound⟩ : ∃ iRow, findInode st ino = some iRow := by
          have hsome : (st.inodes.find? (fun e => e.ino = ino)).isSome :=
            List.find?_isSome.mpr ⟨iEx, hiExMem, by simp [hiExEq, hdino]⟩
          exact Option.isSome_iff_exists.mp hsome
        constructor
        · exact read_file_of_rows st₂ p ino cs hcs b hresolveP hrows
        · refine ⟨_, lstat_size st₂ p ino _ hresolveN
            (findInode_map_update st₂ st ino iRow b now (by rw [hst2]) hfound), rfl⟩
      · -- create branch: a fresh inode `st.nextIno` is allocated
        next heq =>
        have hst2 := writeCreate_ok now cs b _ parent_ino st.nextIno st fuel st₂ f₂ hok
        have hpre : resolveComps st ROOT_INO
            (split_path (normalize_path p)).dropLast = some parent_ino := by
          have hpp := hpar
          unfold resolve_path at hpp
          rwa [split_path_parent _ hcomps_ne hclean] at hpp
        have hleafnone : findDentry st parent_ino
            ((split_path (normalize_path p)).getLastD "") = none := by
          have hwalk : resolveComps st ROOT_INO (split_path (normalize_path p))
              = none := heq
          rw [resolveComps_concat st _ hcomps_ne ROOT_INO, hpre] at hwalk
          have hwalk2 : (match findDentry st parent_ino
              ((split_path (normalize_path p)).getLastD "") with
            | some d => some d.ino
            | none => none) = none := hwalk
          cases hfd : findDentry st parent_ino
              ((split_path (normalize_path p)).getLastD "") with
          | none => rfl
          | some d => rw [hfd] at hwalk2; cases hwalk2
        have hres2 : resolveComps st₂ ROOT_INO (split_path (normalize_path p))
            = some st.nextIno :=
          resolve_create st₂ st (split_path (normalize_path p)) parent_ino st.nextIno
            ⟨(split_path (normalize_path p)).getLastD "", parent_ino, st.nextIno⟩
            (by rw [hst2]) rfl rfl rfl hcomps_ne hpre hleafnone
        have hresolveN : resolve_path st₂ (normalize_path p) = some st.nextIno := hres2
        have hresolveP : resolve_path st₂ p = some st.nextIno := by
          unfold resolve_path
          rw [split_path_abs p habs]
          exact hres2
        have hrows : rowsFor st₂ st.nextIno = chunkRowsFrom st.nextIno 0 (chunksOf cs b) :=
          rowsFor_after_append st.data _ st.nextIno st₂ (by rw [hst2])
            (fun r hr => by have := hwf3 r hr; omega)
            (chunkRowsFrom_filter_self st.nextIno 0 _)
        constructor
        · exact read_file_of_rows st₂ p st.nextIno cs hcs b hresolveP hrows
        · refine ⟨_, lstat_size st₂ p st.nextIno _ hresolveN
            (findInode_create st₂ st st.nextIno
              ({ ino := st.nextIno, mode := DEFAULT_FILE_MODE, uid := 0, gid := 0
                 size := (b.length : Int), atime := now, mtime := now
                 ctime := now } : Inode) b now (by rw [hst2]) rfl
              (fun e he => by have := hwf1 e he; omega)), rfl⟩

/-- Witness for C1: writing `[1, 2, 3]` to the absolute path `/x` on a
fresh filesystem and reading it back. -/
theorem c1_roundtrip_absolute_witness :
    read_file (write_file 5 4096 "/x" [1, 2, 3] (freshState 0) 10).2.1 "/x"
      = some [1, 2, 3] ∧
    ∃ s, lstat (write_file 5 4096 "/x" [1, 2, 3] (freshState 0) 10).2.1 "/x"
      = some s ∧ s.size = (([1, 2, 3] : List Nat).length : Int) :=
  c1_roundtrip_absolute 5 4096 "/x" [1, 2, 3] (freshState 0) 10
    (write_file 5 4096 "/x" [1, 2, 3] (freshState 0) 10).2.1
    (write_file 5 4096 "/x" [1, 2, 3] (freshState 0) 10).2.2
    (by decide) (by decide) (by decide) (by decide)

/-- **C1** (counterexample): the claim fails twice over.  (1) For the
relative path `"a/../b"`, `write_file` succeeds (it folds the `..` and
writes `/b`) but `read_file` on the same path walks the literal segments
`a`, `..`, `b` and returns absent.  (2) For `"/b"` naming a symlink,
`write_file` succeeds and stores the bytes on the symlink's own inode, but
`stat("/b")` follows the dangling link and returns absent, so it does not
report size `|b|`. -/
theorem c1_roundtrip_counterexample :
    (writeRelDot.1 = .ok () ∧ read_file writeRelDot.2.1 "a/../b" = none) ∧
    (writeThroughLink.1 = .ok () ∧
      read_file writeThroughLink.2.1 "/b" = some [9] ∧
      stat writeThroughLink.2.1 "/b" = .ok none) := by decide

/-- **C2** (counterexample): operations are not atomic.  `mkdir("/d")` on a
fresh filesystem with the store failing at the second statement returns an
error, yet the new inode row is committed while its dentry is not — a
partial state the claim says is never observable. -/
theorem c2_partial_state_counterexample :
    mkdirLowFuel.1 = .error .StoreError ∧
    mkdirLowFuel.2.1 ≠ freshState 0 ∧
    mkdirLowFuel.2.1.inodes =
      (freshState 0).inodes ++ [⟨2, DEFAULT_DIR_MODE, 0, 0, 0, 0, 0, 0⟩] ∧
    mkdirLowFuel.2.1.dentries = [] := by decide

/-- **C3** (counterexample): normalization is not idempotent.  For the
relative input `"."` the first pass only prepends a slash (`"/."`), and the
second pass folds the dot away (`"/"`). -/
theorem c3_normalize_not_idempotent :
    normalize_path "." = "/." ∧ normalize_path (normalize_path ".") = "/" ∧
    normalize_path (normalize_path ".") ≠ normalize_path "." := by decide

/-- **C4** (counterexample): `read_file` on a directory does not fail with a
`NotFile` error; after `mkdir("/d")` it returns byte content — the empty
byte string — for the directory inode. -/
theorem c4_read_dir_counterexample :
    mkdirD.1 = .ok () ∧
    (lstat mkdirD.2.1 "/d").map Stats.mode = some DEFAULT_DIR_MODE ∧
    read_file mkdirD.2.1 "/d" = some [] := by decide

/-- **C5** (counterexample): `write_file` on an existing directory does not
fail with an `IsDirectory` error: after `mkdir("/d")`,
`write_file("/d", [42])` succeeds, and the directory's inode row and chunk
table entries change (a chunk row appears and the size becomes 1, with the
mode still a directory). -/
theorem c5_write_dir_counterexample :
    mkdirD.1 = .ok () ∧
    writeToDir.1 = .ok () ∧
    rowsFor writeToDir.2.1 2 = [⟨2, 0, [42]⟩] ∧
    (findInode writeToDir.2.1 2).map Inode.mode = some DEFAULT_DIR_MODE ∧
    (findInode writeToDir.2.1 2).map Inode.size = some 1 := by decide

/-- **C6** (counterexample): `mkdir` does not fail with `NotDirectory` when
the parent is a regular file: after `write_file("/f", [])`, `mkdir("/f/d")`
succeeds and creates an inode and a dentry whose parent is the file's
inode. -/
theorem c6_mkdir_file_parent_counterexample :
    fileF.1 = .ok () ∧
    (findInode fileF.2.1 2).map Inode.mode = some DEFAULT_FILE_MODE ∧
    mkdirUnderFile.1 = .ok () ∧
    mkdirUnderFile.2.1.dentries = [⟨"f", 1, 2⟩, ⟨"d", 2, 3⟩] := by decide

end AgentFs
